import Mathlib

/-!
The YCSB trace-replay benchmark of `cuckoo_ycsb.cpp`.

A shallow embedding of `Key<len>`, `prepare_xindex`, `run_fg` and the start
barrier of `run_benchmark`, followed by the properties proved about them.
Bytes are `Fin 256`; `uint64_t` is `Nat` reduced modulo `2 ^ 64`.  The
constant `MAX_KEY_SIZE` of the header `../test_config.h` is the parameter
`len`; the gate of `../lock.h` and the index library are inputs of the model.
A mapped file is the list of the bytes of its mapping: a read at or after the
end of the list is a read outside the mapping.
-/

namespace Sia

/-- One byte of memory (`uint8_t`, or a `char` read as its unsigned value). -/
abbrev Byte := Fin 256

/-- The libc `memcmp(a, b, n)`: compares the first `n` bytes as unsigned
bytes and returns a negative, zero or positive value at the first difference.
Only the sign is specified by C; the model returns `-1`, `0` or `1`. -/
def memcmp : List Byte → List Byte → Nat → Int
  | a :: as, b :: bs, n + 1 =>
    if a < b then -1 else if b < a then 1 else memcmp as bs n
  | _, _, _ => 0

/-- The class `Key<len>`: its only data member is `uint8_t buf[len]`. -/
structure Key (len : Nat) where
  buf : List Byte
  size : buf.length = len

namespace Key

variable {len : Nat}

/-- The byte `buf[i]`. -/
def byte (k : Key len) (i : Nat) : Byte := k.buf.getD i 0

/-- The `operator<`: `memcmp(&l.buf, &r.buf, len) < 0`. -/
def op_lt (l r : Key len) : Bool := decide (memcmp l.buf r.buf len < 0)

/-- The `operator>`: `memcmp(&l.buf, &r.buf, len) > 0`. -/
def op_gt (l r : Key len) : Bool := decide (memcmp l.buf r.buf len > 0)

/-- The `operator>=`: `memcmp(&l.buf, &r.buf, len) >= 0`. -/
def op_ge (l r : Key len) : Bool := decide (memcmp l.buf r.buf len ≥ 0)

/-- The `operator<=`: `memcmp(&l.buf, &r.buf, len) <= 0`. -/
def op_le (l r : Key len) : Bool := decide (memcmp l.buf r.buf len ≤ 0)

/-- The `operator==`: `memcmp(&l.buf, &r.buf, len) == 0`. -/
def op_eq (l r : Key len) : Bool := decide (memcmp l.buf r.buf len = 0)

/-- The `operator!=`: `memcmp(&l.buf, &r.buf, len) != 0`. -/
def op_ne (l r : Key len) : Bool := decide (memcmp l.buf r.buf len ≠ 0)

end Key

/-- The constructor `Key(const char* s)`: `for (i = 0; i < len; i++) buf[i] = s[idx++]`.
The argument is the mapped memory seen from `s`; `none` when the `len` bytes
are not all inside the mapping. -/
def Key.ofCStr (len : Nat) (s : List Byte) : Option (Key len) :=
  if h : (s.take len).length = len then some ⟨s.take len, h⟩ else none

/-! ### Mapping and tokenising a file -/

/-- The call `mmap(0, buf.st_size, PROT_READ|PROT_WRITE, MAP_PRIVATE, fd, 0)`
with pages of `page` bytes: `none` is `MAP_FAILED`, returned for a file of 0
bytes; otherwise the mapping holds the bytes of the file, followed by zero
bytes up to the end of its last page (none when the size of the file is a
multiple of `page`).  The result of `mmap` is not tested by the program. -/
def mmap (page : Nat) (file : List Byte) : Option (List Byte) :=
  if file.length = 0 then none
  else some (file ++ List.replicate ((page - file.length % page) % page) 0)

/-- The leading-delimiter skip of `strtok_r` (`s += strspn(s, "\n")`); `none`
when the scan leaves the mapping. -/
def skip_delims : List Byte → Option (List Byte)
  | [] => none
  | b :: bs => if b = 10 then skip_delims bs else some (b :: bs)

/-- The token scan of `strtok_r` (`strcspn(s, "\n")` and the write of the
terminating NUL).  Returns the token, the memory that follows the token once
the call has returned, and the saved pointer; `none` when the scan leaves the
mapping before it meets a newline or a NUL. -/
def strtok_span : List Byte → Option (List Byte × List Byte × List Byte)
  | [] => none
  | b :: bs =>
    if b = 10 then some ([], 0 :: bs, bs)
    else if b = 0 then some ([], b :: bs, b :: bs)
    else
      match strtok_span bs with
      | none => none
      | some r => some (b :: r.1, r.2.1, r.2.2)

/-- What a call of `strtok_r` hands back with a token: the token (`line`),
the memory right after it (`after`, starting with the NUL that ends the
token) and the value left in `remains` (`save`). -/
structure Token where
  line : List Byte
  after : List Byte
  save : List Byte
deriving DecidableEq, Repr

/-- The outcomes of a call of `strtok_r`: it has read outside the mapping
(what happens then is not determined by the program), it returns `NULL`, or
it returns a token. -/
inductive Scan where
  | past_mapping
  | null
  | token (t : Token)
deriving DecidableEq, Repr

/-- The libc `strtok_r(s, "\n", &remains)` on the mapped memory seen from `s`
(the start of the mapping on the first call, `remains` on the later ones). -/
def strtok_r (s : List Byte) : Scan :=
  match skip_delims s with
  | none => .past_mapping
  | some [] => .past_mapping
  | some (b :: bs) =>
    if b = 0 then .null
    else
      match strtok_span (b :: bs) with
      | none => .past_mapping
      | some r => .token ⟨r.1, r.2.1, r.2.2⟩

/-! ### Records handed to the index -/

/-- Modelled from the spec: the record `ct_kv` of the missing header
`cuckoo-trie-code/cuckoo_trie.h`, a fixed-size value record: the two size
fields set by `kv_init` and the `bytes` area (key followed by value). -/
structure ct_kv where
  key_size : Nat
  value_size : Nat
  bytes : List Byte
deriving DecidableEq, Repr

/-- Modelled from the spec: `kv_key_size` of the missing header
`cuckoo-trie-code/cuckoo_trie.h`, the entry's size field that a scan touches. -/
def kv_key_size (kv : ct_kv) : Nat := kv.key_size

/-- The libc `memset(dst, c, n)` on the bytes of `dst`. -/
def memset (dst : List Byte) (c : Byte) (n : Nat) : List Byte :=
  List.replicate n c ++ dst.drop n

/-- The libc `memcpy(dst, src, n)` on the bytes of `dst`. -/
def memcpy (dst src : List Byte) (n : Nat) : List Byte :=
  src.take n ++ dst.drop n

/-- The record built before `ct_insert` and `ct_update`:
`kv_init(kv, MAX_KEY_SIZE, 8); memset(kv->bytes, 0, MAX_KEY_SIZE + 8);
memcpy(kv->bytes, query_key.buf, MAX_KEY_SIZE)`.  `heap` is what `malloc`
left in the `MAX_KEY_SIZE + 8` bytes of `kv->bytes`. -/
def build_kv {len : Nat} (heap : List Byte) (query_key : Key len) : ct_kv :=
  { key_size := len, value_size := 8,
    bytes := memcpy (memset (heap.take (len + 8)) 0 (len + 8)) query_key.buf len }

/-- The calls a thread issues to the index: `ct_lookup`, `ct_update` and
`ct_insert` with their argument, and for a scan the key given to
`ct_iter_goto` with the `results` and the `checksum` the loop has built. -/
inductive IndexCall where
  | lookup (key : List Byte)
  | update (kv : ct_kv)
  | insert (kv : ct_kv)
  | scan (key : List Byte) (results : List ct_kv) (checksum : Nat)
deriving DecidableEq, Repr

/-! ### The scan branch -/

/-- Modelled from the spec: `ct_iter_next` of the missing index library, on
an iterator given as the entries it still yields; `none` is the `NULL` at the
end. -/
def ct_iter_next : List ct_kv → Option ct_kv × List ct_kv
  | [] => (none, [])
  | e :: es => (some e, es)

/-- The constant of `int range_records = 10;` (the draw from `ratio_dis(gen)` is commented
out). -/
def range_records : Nat := 10

/-- The loop `for (int i=0; i<range_records; i++)` of `case 's'`, with
`todo = range_records - i` iterations left. -/
def scan_loop : Nat → List ct_kv → List ct_kv → Nat → List ct_kv × Nat
  | 0, _, results, checksum => (results, checksum)
  | todo + 1, iter, results, checksum =>
    match ct_iter_next iter with
    | (none, _) => (results, checksum)
    | (some res, iter') =>
      scan_loop todo iter' (results ++ [res]) ((checksum + kv_key_size res) % 2 ^ 64)

/-- The body of `case 's'`: `results` empty, `checksum = 0`, the iterator
positioned by `ct_iter_goto`, then the loop. -/
def scan_branch (iter : List ct_kv) : List ct_kv × Nat :=
  scan_loop range_records iter [] 0

/-! ### The foreground worker -/

/-- The `struct FGParam`, without the handle of the index; `latency_sum` is a
`double`, kept in an uninterpreted carrier `D`. -/
structure FGParam (D : Type) where
  throughput : Nat
  thread_id : Nat
  alive : Bool
  latency_sum : D
  latency_count : Int

/-- The increment `x++` on an `int`, wrapping at 32 bits as the compiled
code does (the overflow itself is undefined in C++). -/
def int_incr (x : Int) : Int :=
  if x + 1 < 2 ^ 31 then x + 1 else x + 1 - 2 ^ 32

/-- What the worker gets from outside its own code. -/
structure Env (D : Type) where
  /-- the size of a page of memory -/
  page_size : Nat
  /-- the global `seed`, feeding `std::mt19937 gen(seed)`, which is never drawn from -/
  seed : Nat
  /-- value of `running` at every read after the recorded ones -/
  running_rest : Bool
  /-- the global `training_threads` as read at the top of iteration `k` -/
  training_threads : Nat → Nat
  /-- whether the wait on `training_threads_cond` of iteration `k` returns -/
  gate_released : Nat → Bool
  /-- the bytes `malloc` hands out in iteration `k` -/
  heap : Nat → List Byte
  /-- the entries the iterator of iteration `k` yields after `ct_iter_goto` -/
  iter : Nat → List ct_kv
  /-- the time measured between the two `clock_gettime` calls of iteration `k` -/
  elapsed : Nat → D
  /-- addition of `double` -/
  dadd : D → D → D

/-- Where the thread is: in its replay loop, waiting on the gate, stopped
with the whole process by `COUT_N_EXIT`, past the loop, killed with the whole
process by the fault of a read through `MAP_FAILED` (`segv`), or past a read
outside its mapping (`past_mapping`), from where the program does not
determine what happens. -/
inductive Phase where
  | running
  | blocked
  | fatal
  | done
  | segv
  | past_mapping
deriving DecidableEq, Repr

/-- The state of `run_fg` at the head of its replay loop. -/
structure Worker (D : Type) where
  phase : Phase
  token : Option Token
  /-- values of the volatile `running` at the coming reads -/
  obs : List Bool
  /-- number of the iteration -/
  k : Nat
  param : FGParam D
  calls : List IndexCall

/-- Modelled from the spec: the macro `COUT_N_EXIT` of the missing header
`../test_config.h`, a fatal, process-terminating condition; the thread goes
no further. -/
def COUT_N_EXIT {D : Type} (w : Worker D) : Worker D :=
  { w with phase := .fatal }

/-- A read of the volatile `running`. -/
def read_running {D : Type} (env : Env D) : List Bool → Bool × List Bool
  | [] => (env.running_rest, [])
  | b :: bs => (b, bs)

/-- The `switch (op)`: the call issued to the index, or `none` where
`COUT_N_EXIT` ends the process (`case 'd'` and `default`). -/
def dispatch {D : Type} {len : Nat} (env : Env D) (k : Nat) (op : Byte) (query_key : Key len) :
    Option IndexCall :=
  if op = 114 then some (.lookup query_key.buf)
  else if op = 117 then some (.update (build_kv (env.heap k) query_key))
  else if op = 105 then some (.insert (build_kv (env.heap k) query_key))
  else if op = 100 then none
  else if op = 115 then
    some (.scan query_key.buf (scan_branch (env.iter k)).1 (scan_branch (env.iter k)).2)
  else none

/-- One pass through `while (running && token) { ... }`, and the
`thread_param.alive = false` that follows the loop when it is left. -/
def fg_step {D : Type} (len : Nat) (env : Env D) (w : Worker D) : Worker D :=
  match w.phase with
  | .running =>
    match read_running env w.obs, w.token with
    | (true, obs), some tok =>
      if 0 < env.training_threads w.k ∧ env.gate_released w.k = false then
        { w with phase := .blocked, obs := obs }
      else
        let op : Byte := tok.line.headD 0
        match Key.ofCStr len ((tok.line ++ tok.after).drop 2) with
        | none => { w with phase := .past_mapping, obs := obs }
        | some query_key =>
          match strtok_r tok.save with
          | .past_mapping => { w with phase := .past_mapping, obs := obs }
          | .null =>
            { w with phase := .done, token := none, obs := obs,
                     param := { w.param with alive := false } }
          | .token next =>
            match dispatch env w.k op query_key with
            | none => COUT_N_EXIT { w with token := some next, obs := obs }
            | some call =>
              { phase := .running, token := some next, obs := obs, k := w.k + 1,
                param := { w.param with
                  latency_sum := env.dadd w.param.latency_sum (env.elapsed w.k)
                  latency_count := int_incr w.param.latency_count
                  throughput := (w.param.throughput + 1) % 2 ^ 64 },
                calls := w.calls ++ [call] }
    | (_, obs), _ =>
      { w with phase := .done, obs := obs, param := { w.param with alive := false } }
  | _ => w

/-- The replay loop run for at most `fuel` passes. -/
def run_fg_loop {D : Type} (len : Nat) (env : Env D) : Nat → Worker D → Worker D
  | 0, w => w
  | fuel + 1, w => run_fg_loop len env fuel (fg_step len env w)

/-- The spin `while (!running) ;`: the reads left once `running` was seen
true, or `none` when it never is. -/
def spin_wait {D : Type} (env : Env D) : List Bool → Option (List Bool)
  | [] => if env.running_rest then some [] else none
  | b :: bs => if b then some bs else spin_wait env bs

/-- The function `run_fg` from the `mmap` of the trace to the end of the
thread.  The first `strtok_r` comes before `ready_threads++` and the spin:
on `MAP_FAILED` it faults, and it may leave the mapping.  Otherwise the
result is `none` when the spin on `running` never ends, else the final
state.  Every pass of the loop takes at least one byte of the mapping, so
one pass more than the mapping has bytes reaches the end of the loop. -/
def run_fg {D : Type} (len : Nat) (env : Env D) (file : List Byte) (obs : List Bool)
    (param : FGParam D) : Option (Worker D) :=
  match mmap env.page_size file with
  | none => some { phase := .segv, token := none, obs := obs, k := 0, param := param, calls := [] }
  | some mem =>
    match strtok_r mem with
    | .past_mapping =>
      some { phase := .past_mapping, token := none, obs := obs, k := 0, param := param,
             calls := [] }
    | .null =>
      match spin_wait env obs with
      | none => none
      | some obs' =>
        some (run_fg_loop len env (mem.length + 1)
          { phase := .running, token := none, obs := obs', k := 0, param := param, calls := [] })
    | .token tok =>
      match spin_wait env obs with
      | none => none
      | some obs' =>
        some (run_fg_loop len env (mem.length + 1)
          { phase := .running, token := some tok, obs := obs', k := 0, param := param,
            calls := [] })

/-! ### The loader -/

/-- How `prepare_xindex` ends (`done` is its `return`) and the `ct_insert`
calls it has issued, in order. -/
structure LoadRun where
  phase : Phase
  calls : List IndexCall
deriving DecidableEq, Repr

/-- The loop `while (token) { ... }` of `prepare_xindex` run for at most
`fuel` passes, with the inserts issued so far; `none` when the passes do not
suffice. -/
def prepare_loop (len : Nat) (heap : Nat → List Byte) :
    Nat → Option Token → List IndexCall → Option LoadRun
  | _, none, calls => some ⟨.done, calls⟩
  | 0, some _, _ => none
  | fuel + 1, some tok, calls =>
    match Key.ofCStr len ((tok.line ++ tok.after).drop 2) with
    | none => some ⟨.past_mapping, calls⟩
    | some query_key =>
      match strtok_r tok.save with
      | .past_mapping => some ⟨.past_mapping, calls⟩
      | .null =>
        prepare_loop len heap fuel none
          (calls ++ [.insert (build_kv (heap calls.length) query_key)])
      | .token next =>
        prepare_loop len heap fuel (some next)
          (calls ++ [.insert (build_kv (heap calls.length) query_key)])

/-- The function `prepare_xindex` from the `mmap` of the load file on, with
pages of `page` bytes. -/
def prepare_xindex (page len : Nat) (heap : Nat → List Byte) (file : List Byte) :
    Option LoadRun :=
  match mmap page file with
  | none => some ⟨.segv, []⟩
  | some mem =>
    match strtok_r mem with
    | .past_mapping => some ⟨.past_mapping, []⟩
    | .null => some ⟨.done, []⟩
    | .token tok => prepare_loop len heap (mem.length + 1) (some tok) []

/-! ### The final report -/

/-- Where a foreground thread is in `run_fg`: not yet created, mapping its
trace (up to `ready_threads++`), in `while (!running) ;`, in the replay loop,
or past `thread_param.alive = false`. -/
inductive WorkerPc where
  | unborn
  | setup
  | spinning
  | replay
  | finished
deriving DecidableEq, Repr

/-- A foreground thread of the barrier model, with the number of operations
it has dispatched. -/
structure WorkerThread where
  pc : WorkerPc
  dispatched : Nat
deriving DecidableEq, Repr

/-- Where `run_benchmark` is: in the `pthread_create` loop about to create
worker `i`, in `while (ready_threads < fg_n) sleep(1)`, in the sampling loop,
or past the `running = false` that follows it. -/
inductive CoordPc where
  | launching (i : Nat)
  | polling
  | sampling
  | reporting
deriving DecidableEq, Repr

/-- The shared state of the process: the globals `ready_threads` and
`running`, the launching thread and the `fg_n` foreground threads;
`exited` is the process ended by `COUT_N_EXIT`. -/
structure Sys where
  fg_n : Nat
  ready_threads : Nat
  running : Bool
  exited : Bool
  coord : CoordPc
  workers : List WorkerThread
deriving DecidableEq, Repr

/-- What a worker finds when its loop asks for the line to dispatch: no line
(or no line after it), a line with a supported opcode, or a line that ends
in `COUT_N_EXIT`. -/
inductive LineObs where
  | last
  | supported
  | unsupported
deriving DecidableEq, Repr

/-- One atomic step of one thread. `coord leave`: the launching thread,
`leave` telling whether its sampling loop ends now. `worker i line`: worker
`i`, `line` being what its trace holds. -/
inductive Event where
  | coord (leave : Bool)
  | worker (i : Nat) (line : LineObs)
deriving DecidableEq, Repr

/-- Whether the thread has executed `ready_threads++`. -/
def WorkerThread.counted (w : WorkerThread) : Bool :=
  match w.pc with
  | .spinning | .replay | .finished => true
  | _ => false

/-- The state `run_benchmark` starts from: `ready_threads(0)`,
`running = false`, no thread created. -/
def Sys.init (fg_n : Nat) : Sys :=
  { fg_n := fg_n, ready_threads := 0, running := false, exited := false,
    coord := .launching 0, workers := List.replicate fg_n ⟨.unborn, 0⟩ }

/-- A step of worker `w` of `run_fg`, on the shared state `s`: the new
thread state and the new shared state, or `none` when the thread cannot
move. -/
def worker_step (s : Sys) (i : Nat) (w : WorkerThread) (line : LineObs) : Option Sys :=
  match w.pc with
  | .unborn => none
  | .setup =>
    some { s with ready_threads := s.ready_threads + 1,
                  workers := s.workers.set i { w with pc := .spinning } }
  | .spinning =>
    if s.running then some { s with workers := s.workers.set i { w with pc := .replay } }
    else some s
  | .replay =>
    if s.running then
      match line with
      | .last => some { s with workers := s.workers.set i { w with pc := .finished } }
      | .supported =>
        some { s with workers := s.workers.set i { w with dispatched := w.dispatched + 1 } }
      | .unsupported => some { s with exited := true }
    else some { s with workers := s.workers.set i { w with pc := .finished } }
  | .finished => none

/-- A step of `run_benchmark` on the shared state. -/
def coord_step (s : Sys) (leave : Bool) : Option Sys :=
  match s.coord with
  | .launching i =>
    if i < s.fg_n then
      some { s with coord := .launching (i + 1), workers := s.workers.set i ⟨.setup, 0⟩ }
    else some { s with coord := .polling }
  | .polling =>
    if s.ready_threads < s.fg_n then some s
    else some { s with running := true, coord := .sampling }
  | .sampling =>
    if leave then some { s with running := false, coord := .reporting } else some s
  | .reporting => none

/-- A step of the `i`-th foreground thread, when there is one. -/
def worker_event (s : Sys) (i : Nat) (line : LineObs) : Option Sys :=
  match s.workers.get? i with
  | none => none
  | some w => worker_step s i w line

/-- One step of the process; `none` when the event cannot happen (no thread
moves once the process has exited). -/
def sys_step (s : Sys) (e : Event) : Option Sys :=
  if s.exited then none
  else
    match e with
    | .coord leave => coord_step s leave
    | .worker i line => worker_event s i line

/-- The state after a sequence of events. -/
def sys_run : Sys → List Event → Option Sys
  | s, [] => some s
  | s, e :: es =>
    match sys_step s e with
    | none => none
    | some s' => sys_run s' es

/-- What holds in every state the process can reach: the thread table has
`fg_n` entries; `ready_threads` counts the threads past `ready_threads++`;
the launching thread is past its poll only with `ready_threads = fg_n`;
`running` is true only during sampling; the threads not yet created are
untouched; a thread that has not left its spin has dispatched nothing; and a
thread is past its spin only when the launching thread is past its poll. -/
structure SysInv (n : Nat) (s : Sys) : Prop where
  fg : s.fg_n = n
  size : s.workers.length = n
  count : s.ready_threads = s.workers.countP WorkerThread.counted
  passed : s.coord = .sampling ∨ s.coord = .reporting → s.ready_threads = n
  started : s.running = true → s.coord = .sampling
  fresh : ∀ i, s.coord = .launching i → ∀ j w, i ≤ j → s.workers.get? j = some w →
    w = ⟨.unborn, 0⟩
  idle : ∀ w ∈ s.workers, (w.pc = .unborn ∨ w.pc = .setup ∨ w.pc = .spinning) →
    w.dispatched = 0
  released : ∀ w ∈ s.workers, (w.pc = .replay ∨ w.pc = .finished) →
    (s.coord = .sampling ∨ s.coord = .reporting)

/-! ### Trace files as lists of lines -/

/-- A line holds neither a newline nor a NUL. -/
def clean (l : List Byte) : Prop := ∀ b ∈ l, b ≠ 10 ∧ b ≠ 0

/-- The file made of the lines, each followed by a newline. -/
def encode : List (List Byte) → List Byte
  | [] => []
  | l :: ls => l ++ 10 :: encode ls

/-- A line of a load file: a 2-byte marker and `len` bytes of key (and
possibly more bytes after them). -/
def LoadLine (len : Nat) (l : List Byte) : Prop :=
  clean l ∧ 2 + len ≤ l.length

/-- A line of a worker trace with a supported opcode: `r`, `u`, `i` or `s` at
byte 0, a separator, and `len` bytes of key (and possibly more bytes after
them). -/
def OpLine (len : Nat) (l : List Byte) : Prop :=
  clean l ∧ 2 + len ≤ l.length ∧
    (l.headD 0 = 114 ∨ l.headD 0 = 117 ∨ l.headD 0 = 105 ∨ l.headD 0 = 115)

/-- The key payload of a line: its bytes `2 .. 2 + len - 1`. -/
def payload (len : Nat) (l : List Byte) : List Byte := (l.drop 2).take len

/-- The calls that the lines stand for when they are dispatched in order as
iterations `k`, `k + 1`, ...: for each line the call of its opcode (byte 0) on
its payload. -/
def expected_calls {D : Type} (len : Nat) (env : Env D) : Nat → List (List Byte) → List IndexCall
  | _, [] => []
  | k, l :: ls =>
    (match Key.ofCStr len (l.drop 2) with
      | none => []
      | some key => (dispatch env k (l.headD 0) key).toList)
      ++ expected_calls len env (k + 1) ls

/-- The file made of the lines, the last one with or without its newline. -/
def file_of (lines : List (List Byte)) (final_newline : Bool) : List Byte :=
  if final_newline then encode lines else (encode lines).dropLast

/-- Successive calls of `strtok_r` from `s` return exactly the lines `ls`,
and the call after them ends as `fin`. -/
def tokenizes (fin : Scan) : List Byte → List (List Byte) → Prop
  | s, [] => strtok_r s = fin
  | s, l :: ls =>
    ∃ after save, strtok_r s = .token ⟨l, after, save⟩ ∧ save.length < s.length ∧
      tokenizes fin save ls

/-- The value of `latency_sum` after the measurements of iterations
`k, ..., k + n - 1` have been added to `acc`, in that order. -/
def sum_elapsed {D : Type} (env : Env D) : Nat → Nat → D → D
  | _, 0, acc => acc
  | k, n + 1, acc => sum_elapsed env (k + 1) n (env.dadd acc (env.elapsed k))

/-- The record inserted for a line of the load file: the payload as key
and 8 zero bytes of value. -/
def load_record (len : Nat) (l : List Byte) : ct_kv :=
  { key_size := len, value_size := 8, bytes := payload len l ++ List.replicate 8 0 }

/-- A load file of three lines with the keys `00000001`, `00000002`,
`00000003`, each after the marker `I `. -/
def example_load : List (List Byte) :=
  [[73, 32, 48, 48, 48, 48, 48, 48, 48, 49],
   [73, 32, 48, 48, 48, 48, 48, 48, 48, 50],
   [73, 32, 48, 48, 48, 48, 48, 48, 48, 51]]

/-- A run of two workers: both are created, both count themselves ready,
the launching thread sets `running`, worker 0 leaves its spin and dispatches
one operation while worker 1 still spins. -/
def example_events : List Event :=
  [.coord false, .coord false, .coord false, .worker 0 .last, .worker 1 .last,
   .coord false, .worker 0 .last, .worker 0 .supported]

/-- The state reached by `example_events` with two workers. -/
def example_state : Sys :=
  { fg_n := 2, ready_threads := 2, running := true, exited := false, coord := .sampling,
    workers := [⟨.replay, 1⟩, ⟨.spinning, 0⟩] }

/-- The line `I 00001` of a load file with keys of 5 bytes. -/
def short_load_line : List Byte := [73, 32, 48, 48, 48, 48, 49]

/-- The line `I 00000001` of a load file with keys of 8 bytes. -/
def long_load_line : List Byte := [73, 32, 48, 48, 48, 48, 48, 48, 48, 49]

/-- The `double` sum is not interpreted in the examples: the carrier there is
the number of nanoseconds. -/
def example_env : Env Nat :=
  { page_size := 4096, seed := 0, running_rest := true, training_threads := fun _ => 0,
    gate_released := fun _ => true, heap := fun _ => [], iter := fun _ => [],
    elapsed := fun _ => 1, dadd := fun a b => a + b }

/-- The record `run_benchmark` hands to a worker, with the latency fields at 0. -/
def example_param : FGParam Nat :=
  { throughput := 0, thread_id := 0, alive := true, latency_sum := 0, latency_count := 0 }

/-- A worker in its replay loop on a mapping that holds `r 00000001`,
`u 00000002` and a NUL: the first line is the current token, its newline
already overwritten. -/
def example_worker : Worker Nat :=
  { phase := .running,
    token := some ⟨[114, 32, 48, 48, 48, 48, 48, 48, 48, 49],
      [0, 117, 32, 48, 48, 48, 48, 48, 48, 48, 50, 10, 0],
      [117, 32, 48, 48, 48, 48, 48, 48, 48, 50, 10, 0]⟩,
    obs := [], k := 0, param := example_param, calls := [] }

/-- The lines `r 00000001`, `u 00000002`, `i 00000003`. -/
def example_lines : List (List Byte) :=
  [[114, 32, 48, 48, 48, 48, 48, 48, 48, 49],
   [117, 32, 48, 48, 48, 48, 48, 48, 48, 50],
   [105, 32, 48, 48, 48, 48, 48, 48, 48, 51]]

/-- The trace `r 00000001\nd 00000002\n`. -/
def example_delete_last : List Byte :=
  [114, 32, 48, 48, 48, 48, 48, 48, 48, 49, 10,
   100, 32, 48, 48, 48, 48, 48, 48, 48, 50, 10]

/-- The trace `r 00000001\nu 00000002\ni 00000003\n`. -/
def example_trace : List Byte :=
  [114, 32, 48, 48, 48, 48, 48, 48, 48, 49, 10,
   117, 32, 48, 48, 48, 48, 48, 48, 48, 50, 10,
   105, 32, 48, 48, 48, 48, 48, 48, 48, 51, 10]

/-! ### memcmp -/

theorem memcmp_cons (a b : Byte) (as bs : List Byte) (n : Nat) :
    memcmp (a :: as) (b :: bs) (n + 1) =
      if a < b then -1 else if b < a then 1 else memcmp as bs n := rfl

theorem memcmp_zero (as bs : List Byte) : memcmp as bs 0 = 0 := by
  cases as <;> cases bs <;> rfl

theorem memcmp_range (n : Nat) : ∀ as bs : List Byte,
    memcmp as bs n = -1 ∨ memcmp as bs n = 0 ∨ memcmp as bs n = 1 := by
  induction n with
  | zero => intro as bs; simp [memcmp_zero]
  | succ n ih =>
    intro as bs
    cases as with
    | nil => simp [memcmp]
    | cons a as =>
      cases bs with
      | nil => simp [memcmp]
      | cons b bs =>
        rw [memcmp_cons]
        split_ifs
        · simp
        · simp
        · exact ih as bs

theorem memcmp_eq_zero_iff (n : Nat) : ∀ as bs : List Byte,
    as.length = n → bs.length = n → (memcmp as bs n = 0 ↔ as = bs) := by
  induction n with
  | zero =>
    intro as bs ha hb
    simp [memcmp_zero, List.length_eq_zero.mp ha, List.length_eq_zero.mp hb]
  | succ n ih =>
    intro as bs ha hb
    cases as with
    | nil => simp at ha
    | cons a as =>
      cases bs with
      | nil => simp at hb
      | cons b bs =>
        simp only [List.length_cons, Nat.add_right_cancel_iff] at ha hb
        rw [memcmp_cons]
        split_ifs with h1 h2
        · simp; intro h; exact absurd h (ne_of_lt h1)
        · simp; intro h; exact absurd h.symm (ne_of_lt h2)
        · have hab : a = b := le_antisymm (not_lt.mp h2) (not_lt.mp h1)
          rw [ih as bs ha hb]; simp [hab]

theorem memcmp_swap (n : Nat) : ∀ as bs : List Byte,
    memcmp bs as n = - memcmp as bs n := by
  induction n with
  | zero => intro as bs; simp [memcmp_zero]
  | succ n ih =>
    intro as bs
    cases as with
    | nil => cases bs <;> simp [memcmp]
    | cons a as =>
      cases bs with
      | nil => simp [memcmp]
      | cons b bs =>
        rw [memcmp_cons, memcmp_cons]
        by_cases h1 : a < b
        · simp [h1, not_lt.mpr (le_of_lt h1)]
        · by_cases h2 : b < a
          · simp [h1, h2]
          · simp [h1, h2, ih as bs]

theorem memcmp_neg_iff (n : Nat) : ∀ as bs : List Byte,
    (memcmp as bs n < 0 ↔
      ∃ i, i < n ∧ i < as.length ∧ i < bs.length ∧
        (∀ j, j < i → as.getD j 0 = bs.getD j 0) ∧ as.getD i 0 < bs.getD i 0) := by
  induction n with
  | zero => intro as bs; simp [memcmp_zero]
  | succ n ih =>
    intro as bs
    cases as with
    | nil => simp [memcmp]
    | cons a as =>
      cases bs with
      | nil => simp [memcmp]
      | cons b bs =>
        rw [memcmp_cons]
        by_cases h1 : a < b
        · simp only [h1, if_true]
          constructor
          · intro _
            exact ⟨0, by omega, by simp, by simp, by intro j hj; omega, by simpa using h1⟩
          · intro _; decide
        · by_cases h2 : b < a
          · simp only [h1, h2, if_true, if_false]
            constructor
            · intro h; exact absurd h (by decide)
            · rintro ⟨i, _, _, _, hpre, hlt⟩
              cases i with
              | zero => exact absurd (by simpa using hlt) h1
              | succ i =>
                have := hpre 0 (by omega)
                simp at this
                exact absurd h2 (by rw [this]; exact lt_irrefl _)
          · have hab : a = b := le_antisymm (not_lt.mp h2) (not_lt.mp h1)
            simp only [h1, h2, if_false]
            rw [ih as bs]
            constructor
            · rintro ⟨i, hi, hia, hib, hpre, hlt⟩
              refine ⟨i + 1, by omega, by simpa using hia, by simpa using hib, ?_, by simpa using hlt⟩
              intro j hj
              cases j with
              | zero => simpa using hab
              | succ j => simpa using hpre j (by omega)
            · rintro ⟨i, hi, hia, hib, hpre, hlt⟩
              cases i with
              | zero => exact absurd (by simpa using hlt) h1
              | succ i =>
                refine ⟨i, by omega, by simpa using hia, by simpa using hib, ?_, by simpa using hlt⟩
                intro j hj
                simpa using hpre (j + 1) (by omega)

theorem memcmp_trans (n : Nat) : ∀ as bs cs : List Byte,
    as.length = n → bs.length = n → cs.length = n →
    memcmp as bs n < 0 → memcmp bs cs n < 0 → memcmp as cs n < 0 := by
  induction n with
  | zero => intro as bs cs _ _ _ h; simp [memcmp_zero] at h
  | succ n ih =>
    intro as bs cs ha hb hc
    cases as with
    | nil => simp at ha
    | cons a as =>
      cases bs with
      | nil => simp at hb
      | cons b bs =>
        cases cs with
        | nil => simp at hc
        | cons c cs =>
          simp only [List.length_cons, Nat.add_right_cancel_iff] at ha hb hc
          rw [memcmp_cons, memcmp_cons, memcmp_cons]
          intro h1 h2
          by_cases hab : a < b
          · by_cases hbc : b < c
            · simp [lt_trans hab hbc]
            · by_cases hcb : c < b
              · simp [hbc, hcb] at h2
              · have : b = c := le_antisymm (not_lt.mp hcb) (not_lt.mp hbc)
                subst this; simp [hab]
          · by_cases hba : b < a
            · simp [hab, hba] at h1
            · have : a = b := le_antisymm (not_lt.mp hba) (not_lt.mp hab)
              subst this
              by_cases hbc : a < c
              · simp [hbc]
              · by_cases hcb : c < a
                · simp [hbc, hcb] at h2
                · simp only [hab, hbc, hcb, if_false] at h1 h2 ⊢
                  exact ih as bs cs ha hb hc h1 h2

/-! ### The order on keys -/

theorem Key.ext_buf {len : Nat} (a b : Key len) (h : a.buf = b.buf) : a = b := by
  cases a; cases b; simp at h; subst h; rfl

theorem Key.buf_eq_iff {len : Nat} (a b : Key len) :
    a.buf = b.buf ↔ ∀ i, i < len → a.byte i = b.byte i := by
  constructor
  · intro h i _; simp [Key.byte, h]
  · intro h
    apply List.ext_getElem
    · rw [a.size, b.size]
    · intro i h1 h2
      have := h i (by rw [← a.size]; exact h1)
      simp only [Key.byte, List.getD_eq_getElem?_getD, List.getElem?_eq_getElem h1,
        List.getElem?_eq_getElem h2, Option.getD_some] at this
      exact this

/-- C5: the six comparison operators of `Key<len>` realise the byte-wise
lexicographic order on the `len` unsigned bytes, and that order is total:
`a < b` holds exactly when `a` has the smaller byte at the first index where
the keys differ; exactly one of `a < b`, `a == b`, `a > b` holds; `<` is
transitive; `a > b` is `b < a`; `a <= b` is the negation of `a > b` and
`a >= b` that of `a < b`; `a != b` is the negation of `a == b`; and `a == b`
holds exactly when the keys agree at each of the `len` bytes. -/
theorem key_order_total_lexicographic {len : Nat} (a b c : Key len) :
    (Key.op_lt a b = true ↔
      ∃ i, i < len ∧ (∀ j, j < i → a.byte j = b.byte j) ∧ a.byte i < b.byte i) ∧
    ((Key.op_lt a b = true ∧ Key.op_eq a b = false ∧ Key.op_gt a b = false) ∨
     (Key.op_lt a b = false ∧ Key.op_eq a b = true ∧ Key.op_gt a b = false) ∨
     (Key.op_lt a b = false ∧ Key.op_eq a b = false ∧ Key.op_gt a b = true)) ∧
    (Key.op_lt a b = true → Key.op_lt b c = true → Key.op_lt a c = true) ∧
    (Key.op_gt a b = Key.op_lt b a) ∧
    (Key.op_le a b = !Key.op_gt a b) ∧
    (Key.op_ge a b = !Key.op_lt a b) ∧
    (Key.op_ne a b = !Key.op_eq a b) ∧
    (Key.op_eq a b = true ↔ ∀ i, i < len → a.byte i = b.byte i) ∧
    (Key.op_eq a b = true ↔ a = b) := by
  have hsw := memcmp_swap len a.buf b.buf
  have hz := memcmp_eq_zero_iff len a.buf b.buf a.size b.size
  refine ⟨?_, ?_, ?_, ?_, ?_, ?_, ?_, ?_, ?_⟩
  · simp only [Key.op_lt, decide_eq_true_eq, Key.byte]
    rw [memcmp_neg_iff]
    constructor
    · rintro ⟨i, hi, _, _, hpre, hlt⟩; exact ⟨i, hi, hpre, hlt⟩
    · rintro ⟨i, hi, hpre, hlt⟩
      exact ⟨i, hi, by rw [a.size]; exact hi, by rw [b.size]; exact hi, hpre, hlt⟩
  · simp only [Key.op_lt, Key.op_eq, Key.op_gt, decide_eq_true_eq, decide_eq_false_iff_not]
    rcases memcmp_range len a.buf b.buf with h | h | h <;> rw [h] <;> decide
  · simp only [Key.op_lt, decide_eq_true_eq]
    exact memcmp_trans len a.buf b.buf c.buf a.size b.size c.size
  · simp only [Key.op_lt, Key.op_gt, hsw]
    rcases memcmp_range len a.buf b.buf with h | h | h <;> rw [h] <;> decide
  · simp only [Key.op_le, Key.op_gt]
    rcases memcmp_range len a.buf b.buf with h | h | h <;> rw [h] <;> decide
  · simp only [Key.op_ge, Key.op_lt]
    rcases memcmp_range len a.buf b.buf with h | h | h <;> rw [h] <;> decide
  · simp only [Key.op_ne, Key.op_eq]
    rcases memcmp_range len a.buf b.buf with h | h | h <;> rw [h] <;> decide
  · simp only [Key.op_eq, decide_eq_true_eq]
    rw [hz, Key.buf_eq_iff]
  · simp only [Key.op_eq, decide_eq_true_eq]
    rw [hz]
    exact ⟨Key.ext_buf a b, fun h => by rw [h]⟩

/-- The keys `00000001`, `00000002`, `00000003` are in increasing order. -/
theorem key_order_total_lexicographic_witness :
    Key.op_lt (⟨[48, 48, 48, 48, 48, 48, 48, 49], rfl⟩ : Key 8)
        ⟨[48, 48, 48, 48, 48, 48, 48, 50], rfl⟩ = true ∧
    Key.op_lt (⟨[48, 48, 48, 48, 48, 48, 48, 50], rfl⟩ : Key 8)
        ⟨[48, 48, 48, 48, 48, 48, 48, 51], rfl⟩ = true ∧
    Key.op_lt (⟨[48, 48, 48, 48, 48, 48, 48, 49], rfl⟩ : Key 8)
        ⟨[48, 48, 48, 48, 48, 48, 48, 51], rfl⟩ = true :=
  ⟨by decide, by decide,
    (key_order_total_lexicographic (⟨[48, 48, 48, 48, 48, 48, 48, 49], rfl⟩ : Key 8)
      ⟨[48, 48, 48, 48, 48, 48, 48, 50], rfl⟩
      ⟨[48, 48, 48, 48, 48, 48, 48, 51], rfl⟩).2.2.1 (by decide) (by decide)⟩

/-! ### The tokeniser -/

theorem strtok_span_line (l rest : List Byte) (h : clean l) :
    strtok_span (l ++ 10 :: rest) = some (l, 0 :: rest, rest) := by
  induction l with
  | nil => simp [strtok_span]
  | cons b l ih =>
    have hb := h b (by simp)
    have hl : clean l := fun x hx => h x (by simp [hx])
    simp [strtok_span, hb.1, hb.2, ih hl]

theorem strtok_span_nul (l rest : List Byte) (h : clean l) :
    strtok_span (l ++ 0 :: rest) = some (l, 0 :: rest, 0 :: rest) := by
  induction l with
  | nil => simp [strtok_span]
  | cons b l ih =>
    have hb := h b (by simp)
    have hl : clean l := fun x hx => h x (by simp [hx])
    simp [strtok_span, hb.1, hb.2, ih hl]

theorem strtok_span_lost (l : List Byte) (h : clean l) : strtok_span l = none := by
  induction l with
  | nil => simp [strtok_span]
  | cons b l ih =>
    have hb := h b (by simp)
    have hl : clean l := fun x hx => h x (by simp [hx])
    simp [strtok_span, hb.1, hb.2, ih hl]

theorem strtok_r_nil : strtok_r [] = .past_mapping := rfl

theorem strtok_r_zero (rest : List Byte) : strtok_r (0 :: rest) = .null := by
  simp [strtok_r, skip_delims]

theorem strtok_r_newlines (m : Nat) (rest : List Byte) :
    strtok_r (List.replicate m 10 ++ rest) = strtok_r rest := by
  induction m with
  | zero => simp
  | succ m ih =>
    have : strtok_r (10 :: (List.replicate m 10 ++ rest)) =
        strtok_r (List.replicate m 10 ++ rest) := by
      simp [strtok_r, skip_delims]
    simpa [List.replicate_succ] using this.trans ih

theorem strtok_r_line (l rest : List Byte) (h : clean l) (hne : l ≠ []) :
    strtok_r (l ++ 10 :: rest) = .token ⟨l, 0 :: rest, rest⟩ := by
  cases l with
  | nil => exact absurd rfl hne
  | cons b l =>
    have hb := h b (by simp)
    have hsp := strtok_span_line (b :: l) rest h
    simp only [List.cons_append] at hsp
    simp [strtok_r, skip_delims, hb.1, hb.2, hsp]

theorem strtok_r_nul (l rest : List Byte) (h : clean l) (hne : l ≠ []) :
    strtok_r (l ++ 0 :: rest) = .token ⟨l, 0 :: rest, 0 :: rest⟩ := by
  cases l with
  | nil => exact absurd rfl hne
  | cons b l =>
    have hb := h b (by simp)
    have hsp := strtok_span_nul (b :: l) rest h
    simp only [List.cons_append] at hsp
    simp [strtok_r, skip_delims, hb.1, hb.2, hsp]

theorem strtok_r_lost (l : List Byte) (h : clean l) : strtok_r l = .past_mapping := by
  cases l with
  | nil => rfl
  | cons b l =>
    have hb := h b (by simp)
    have hsp := strtok_span_lost (b :: l) h
    simp [strtok_r, skip_delims, hb.1, hb.2, hsp]

theorem encode_append (ls ms : List (List Byte)) :
    encode (ls ++ ms) = encode ls ++ encode ms := by
  induction ls with
  | nil => simp [encode]
  | cons l ls ih => simp [encode, ih]

theorem encode_length_pos (l : List Byte) (ls : List (List Byte)) :
    0 < (encode (l :: ls)).length := by
  simp [encode]

theorem tokenizes_encode_append (fin : Scan) (ls ms : List (List Byte)) (rest : List Byte)
    (h : ∀ l ∈ ls, clean l ∧ l ≠ []) (hrest : tokenizes fin rest ms) :
    tokenizes fin (encode ls ++ rest) (ls ++ ms) := by
  induction ls with
  | nil => simpa [encode] using hrest
  | cons l ls ih =>
    have hl := h l (by simp)
    refine ⟨0 :: (encode ls ++ rest), encode ls ++ rest, ?_, ?_, ?_⟩
    · simpa [encode] using strtok_r_line l (encode ls ++ rest) hl.1 hl.2
    · simp [encode]; omega
    · exact ih (fun x hx => h x (by simp [hx]))

theorem encode_dropLast (ls : List (List Byte)) (l : List Byte) :
    (encode (ls ++ [l])).dropLast = encode ls ++ l := by
  rw [encode_append]
  have e1 : encode [l] = l ++ [10] := by simp [encode]
  rw [e1, ← List.append_assoc, List.dropLast_concat]

theorem tokenizes_length (fin : Scan) (ls : List (List Byte)) :
    ∀ s, tokenizes fin s ls → ls.length ≤ s.length := by
  induction ls with
  | nil => intro s _; simp
  | cons l ls ih =>
    rintro s ⟨after, save, _, hlen, hrest⟩
    have := ih save hrest
    simp only [List.length_cons]
    omega

/-! ### The mapping -/

theorem mmap_padded (page : Nat) (file : List Byte) (hpage : 0 < page)
    (hsize : file.length % page ≠ 0) :
    ∃ p, mmap page file = some (file ++ 0 :: List.replicate p 0) := by
  have hne : file.length ≠ 0 := by
    intro h
    rw [h] at hsize
    simp at hsize
  have hlt : file.length % page < page := Nat.mod_lt _ hpage
  refine ⟨page - file.length % page - 1, ?_⟩
  have hpad : (page - file.length % page) % page = (page - file.length % page - 1) + 1 := by
    rw [Nat.mod_eq_of_lt (by omega)]
    omega
  simp only [mmap, hne, if_false, hpad, List.replicate_succ]

theorem mmap_exact (page : Nat) (file : List Byte) (hne : file ≠ [])
    (hsize : file.length % page = 0) : mmap page file = some file := by
  have hlen : file.length ≠ 0 := by
    intro h
    exact hne (List.length_eq_zero.mp h)
  simp [mmap, hlen, hsize]

/-- The mapping of a file of lines whose size is not a multiple of the page
size: the calls of `strtok_r` return the lines, then `NULL`. -/
theorem tokenizes_mmap (page : Nat) (ls : List (List Byte)) (final_newline : Bool)
    (h : ∀ l ∈ ls, clean l ∧ l ≠ []) (hpage : 0 < page)
    (hsize : (file_of ls final_newline).length % page ≠ 0) :
    ∃ mem, mmap page (file_of ls final_newline) = some mem ∧ tokenizes .null mem ls := by
  obtain ⟨p, hp⟩ := mmap_padded page _ hpage hsize
  refine ⟨_, hp, ?_⟩
  cases final_newline with
  | true =>
    have := tokenizes_encode_append .null ls [] (0 :: List.replicate p 0) h (strtok_r_zero _)
    simpa [file_of] using this
  | false =>
    rcases List.eq_nil_or_concat ls with rfl | ⟨init, last, rfl⟩
    · simpa [file_of, encode] using strtok_r_zero (List.replicate p 0)
    · rw [List.concat_eq_append] at h ⊢
      have hlast := h last (by simp)
      have htail : tokenizes .null (last ++ 0 :: List.replicate p 0) [last] :=
        ⟨0 :: List.replicate p 0, 0 :: List.replicate p 0,
          strtok_r_nul last _ hlast.1 hlast.2, by
            cases last with
            | nil => exact absurd rfl hlast.2
            | cons b bs => simp; omega,
          strtok_r_zero _⟩
      have := tokenizes_encode_append .null init [last] (last ++ 0 :: List.replicate p 0)
        (fun x hx => h x (by simp [hx])) htail
      simpa [file_of, encode_dropLast] using this

/-- The mapping of a file of newline-terminated lines whose size is a multiple
of the page size: the calls of `strtok_r` return the lines, and the call after
the last line reads outside the mapping. -/
theorem tokenizes_mmap_exact (page : Nat) (ls : List (List Byte))
    (h : ∀ l ∈ ls, clean l ∧ l ≠ []) (hne : ls ≠ [])
    (hsize : (encode ls).length % page = 0) :
    mmap page (encode ls) = some (encode ls) ∧ tokenizes .past_mapping (encode ls) ls := by
  constructor
  · apply mmap_exact page _ _ hsize
    cases ls with
    | nil => exact absurd rfl hne
    | cons l ls => intro he; have := encode_length_pos l ls; rw [he] at this; simp at this
  · have := tokenizes_encode_append .past_mapping ls [] [] h strtok_r_nil
    simpa using this

/-- The mapping of a file of lines without a newline after the last one,
whose size is a multiple of the page size: the calls of `strtok_r` return
the lines but the last, and the scan of the last line leaves the mapping. -/
theorem tokenizes_mmap_open (page : Nat) (init : List (List Byte)) (last : List Byte)
    (h : ∀ l ∈ init ++ [last], clean l ∧ l ≠ [])
    (hsize : (encode init ++ last).length % page = 0) :
    mmap page (encode init ++ last) = some (encode init ++ last) ∧
      tokenizes .past_mapping (encode init ++ last) init := by
  have hlast := h last (by simp)
  constructor
  · apply mmap_exact page _ _ hsize
    intro he
    have := congrArg List.length he
    simp at this
    exact hlast.2 this.2
  · have := tokenizes_encode_append .past_mapping init [] last
      (fun x hx => h x (by simp [hx])) (strtok_r_lost last hlast.1)
    simpa using this

/-! ### Keys and records -/

theorem Key.ofCStr_take (len : Nat) (s : List Byte) (h : (s.take len).length = len) :
    Key.ofCStr len s = some ⟨s.take len, h⟩ := by
  simp [Key.ofCStr, h]

theorem payload_length (len : Nat) (l : List Byte) (h : 2 + len ≤ l.length) :
    (payload len l).length = len := by
  simp [payload]; omega

/-- The key read at `line + 2` of a line of at least `2 + len` bytes is made
of the bytes `2 .. 2 + len - 1` of that line, whatever follows the line. -/
theorem Key.ofCStr_line (len : Nat) (l after : List Byte) (h : 2 + len ≤ l.length) :
    Key.ofCStr len ((l ++ after).drop 2) = some ⟨payload len l, payload_length len l h⟩ ∧
    Key.ofCStr len (l.drop 2) = some ⟨payload len l, payload_length len l h⟩ := by
  have h1 : ((l ++ after).drop 2).take len = payload len l := by
    rw [List.drop_append_of_le_length (by omega), List.take_append_of_le_length (by simp; omega)]
    rfl
  constructor
  · have h2 : (((l ++ after).drop 2).take len).length = len := by
      rw [h1]; exact payload_length len l h
    rw [Key.ofCStr_take len _ h2]
    simp only [h1]
  · have h2 : ((l.drop 2).take len).length = len := payload_length len l h
    rw [Key.ofCStr_take len _ h2]
    rfl

theorem build_kv_bytes {len : Nat} (heap : List Byte) (query_key : Key len) :
    build_kv heap query_key =
      { key_size := len, value_size := 8, bytes := query_key.buf ++ List.replicate 8 0 } := by
  have h1 : (List.take (len + 8) heap).length ≤ len + 8 := by simp
  simp only [build_kv, memcpy, memset, List.drop_eq_nil_of_le h1, List.append_nil]
  rw [List.take_of_length_le (by rw [query_key.size]), List.drop_replicate]
  simp

/-! ### The scan branch -/

theorem scan_loop_eq (todo : Nat) : ∀ (iter results : List ct_kv) (checksum : Nat),
    checksum < 2 ^ 64 →
    scan_loop todo iter results checksum =
      (results ++ iter.take todo,
        (checksum + ((iter.take todo).map kv_key_size).sum) % 2 ^ 64) := by
  induction todo with
  | zero =>
    intro iter results checksum h
    simp only [scan_loop, List.take_zero, List.append_nil, List.map_nil, List.sum_nil,
      Nat.add_zero, Nat.mod_eq_of_lt h]
  | succ todo ih =>
    intro iter results checksum h
    cases iter with
    | nil =>
      simp only [scan_loop, ct_iter_next, List.take_nil, List.append_nil, List.map_nil,
        List.sum_nil, Nat.add_zero, Nat.mod_eq_of_lt h]
    | cons e es =>
      simp only [scan_loop, ct_iter_next, List.take_succ_cons, List.map_cons, List.sum_cons]
      rw [ih es (results ++ [e]) _ (Nat.mod_lt _ (by norm_num))]
      simp only [List.append_assoc, List.singleton_append, Nat.mod_add_mod, Nat.add_assoc]

/-- C3: a scan collects exactly the first `min(10, m)` of the `m` entries
the iterator yields from the seek key, in iterator order, and its checksum is
the sum of the key sizes of exactly those entries (each added once, in
`uint64_t`); this holds whatever the seed and the other inputs of the worker
are. -/
theorem scan_touches_min_ten {D : Type} {len : Nat} (env : Env D) (k : Nat)
    (query_key : Key len) :
    dispatch env k 115 query_key =
      some (.scan query_key.buf ((env.iter k).take 10)
        ((((env.iter k).take 10).map kv_key_size).sum % 2 ^ 64)) ∧
    (scan_branch (env.iter k)).1 = (env.iter k).take 10 ∧
    (scan_branch (env.iter k)).1.length = min 10 (env.iter k).length ∧
    (scan_branch (env.iter k)).2 = (((scan_branch (env.iter k)).1).map kv_key_size).sum % 2 ^ 64 := by
  have h := scan_loop_eq range_records (env.iter k) [] 0 (by norm_num)
  simp only [List.nil_append, Nat.zero_add, range_records] at h
  have hb : scan_branch (env.iter k) = _ := h
  refine ⟨?_, ?_, ?_, ?_⟩
  · have e1 : ¬ ((115 : Byte) = 114) := by decide
    have e2 : ¬ ((115 : Byte) = 117) := by decide
    have e3 : ¬ ((115 : Byte) = 105) := by decide
    have e4 : ¬ ((115 : Byte) = 100) := by decide
    simp only [dispatch, e1, e2, e3, e4, if_false, if_true, hb]
  · rw [hb]
  · rw [hb]; simp
  · rw [hb]

/-! ### The loader -/

/-- The loop of the loader on a mapping that ends in a NUL: every line is
inserted, the last one too, and the function returns. -/
theorem prepare_loop_all (len : Nat) (heap : Nat → List Byte) (ls : List (List Byte)) :
    ∀ (l after save : List Byte) (calls : List IndexCall) (fuel : Nat),
      (∀ x ∈ l :: ls, LoadLine len x) → tokenizes .null save ls → ls.length + 1 ≤ fuel →
      prepare_loop len heap fuel (some ⟨l, after, save⟩) calls =
        some ⟨.done, calls ++ (l :: ls).map (fun x => IndexCall.insert (load_record len x))⟩ := by
  induction ls with
  | nil =>
    intro l after save calls fuel h htok hfuel
    obtain ⟨fuel, rfl⟩ : ∃ f, fuel = f + 1 := ⟨fuel - 1, by omega⟩
    have hl := h l (by simp)
    have htok : strtok_r save = .null := htok
    simp only [prepare_loop, (Key.ofCStr_line len l after hl.2).1, htok, build_kv_bytes]
    cases fuel <;> simp [prepare_loop, load_record]
  | cons l' ls ih =>
    intro l after save calls fuel h htok hfuel
    obtain ⟨fuel, rfl⟩ : ∃ f, fuel = f + 1 := ⟨fuel - 1, by omega⟩
    have hl := h l (by simp)
    obtain ⟨after', save', htok', _, hrest⟩ := htok
    simp only [prepare_loop, (Key.ofCStr_line len l after hl.2).1, htok', build_kv_bytes]
    rw [ih l' after' save' _ fuel (fun x hx => h x (by simp at hx ⊢; tauto)) hrest
      (by simp at hfuel ⊢; omega)]
    simp [load_record]

/-- The loop of the loader on a mapping that ends with the newline of its
last line: the lines but the last are inserted, and the `strtok_r` that
precedes the insert of the last line reads outside the mapping. -/
theorem prepare_loop_lost (len : Nat) (heap : Nat → List Byte) (ls : List (List Byte)) :
    ∀ (l after save : List Byte) (calls : List IndexCall) (fuel : Nat),
      (∀ x ∈ l :: ls, LoadLine len x) → tokenizes .past_mapping save ls →
      ls.length + 1 ≤ fuel →
      prepare_loop len heap fuel (some ⟨l, after, save⟩) calls =
        some ⟨.past_mapping,
          calls ++ (l :: ls).dropLast.map (fun x => IndexCall.insert (load_record len x))⟩ := by
  induction ls with
  | nil =>
    intro l after save calls fuel h htok hfuel
    obtain ⟨fuel, rfl⟩ : ∃ f, fuel = f + 1 := ⟨fuel - 1, by omega⟩
    have hl := h l (by simp)
    have htok : strtok_r save = .past_mapping := htok
    simp [prepare_loop, (Key.ofCStr_line len l after hl.2).1, htok]
  | cons l' ls ih =>
    intro l after save calls fuel h htok hfuel
    obtain ⟨fuel, rfl⟩ : ∃ f, fuel = f + 1 := ⟨fuel - 1, by omega⟩
    have hl := h l (by simp)
    obtain ⟨after', save', htok', _, hrest⟩ := htok
    simp only [prepare_loop, (Key.ofCStr_line len l after hl.2).1, htok', build_kv_bytes]
    rw [ih l' after' save' _ fuel (fun x hx => h x (by simp at hx ⊢; tauto)) hrest
      (by simp at hfuel ⊢; omega)]
    simp [load_record]

theorem loadLine_nonempty (len : Nat) (lines : List (List Byte))
    (h : ∀ l ∈ lines, LoadLine len l) : ∀ l ∈ lines, clean l ∧ l ≠ [] := by
  intro l hl
  have := h l hl
  refine ⟨this.1, ?_⟩
  intro he
  have h2 := this.2
  rw [he] at h2
  simp at h2

/-- For a load file of `n` lines, each a 2-byte marker followed by
`MAX_KEY_SIZE` bytes of key (the last line with or without its newline),
whose size is not a multiple of the page size, `prepare_xindex` issues
exactly `n` `ct_insert` calls, in file order, the `i`-th with a record whose
key bytes are the payload of line `i` followed by 8 zero bytes of value, and
returns. -/
theorem prepare_xindex_inserts_every_line (page len : Nat) (heap : Nat → List Byte)
    (lines : List (List Byte)) (final_newline : Bool)
    (h : ∀ l ∈ lines, LoadLine len l) (hpage : 0 < page)
    (hsize : (file_of lines final_newline).length % page ≠ 0) :
    prepare_xindex page len heap (file_of lines final_newline) =
      some ⟨.done, lines.map (fun l => IndexCall.insert (load_record len l))⟩ := by
  obtain ⟨mem, hmap, htok⟩ :=
    tokenizes_mmap page lines final_newline (loadLine_nonempty len lines h) hpage hsize
  cases lines with
  | nil =>
    have : strtok_r mem = .null := htok
    simp [prepare_xindex, hmap, this]
  | cons l ls =>
    obtain ⟨after, save, hfirst, hlen, hrest⟩ := htok
    have hcount := tokenizes_length .null ls save hrest
    simp only [prepare_xindex, hmap, hfirst]
    rw [prepare_loop_all len heap ls l after save [] _ h hrest (by omega)]
    simp

/-- For a load file of newline-terminated lines whose size is a multiple of
the page size, `prepare_xindex` inserts the lines but the last and then reads
outside the mapping, before the insert of the last line. -/
theorem prepare_xindex_page_multiple (page len : Nat) (heap : Nat → List Byte)
    (lines : List (List Byte)) (h : ∀ l ∈ lines, LoadLine len l) (hne : lines ≠ [])
    (hsize : (encode lines).length % page = 0) :
    prepare_xindex page len heap (encode lines) =
      some ⟨.past_mapping,
        lines.dropLast.map (fun l => IndexCall.insert (load_record len l))⟩ := by
  obtain ⟨hmap, htok⟩ :=
    tokenizes_mmap_exact page lines (loadLine_nonempty len lines h) hne hsize
  cases lines with
  | nil => exact absurd rfl hne
  | cons l ls =>
    obtain ⟨after, save, hfirst, hlen, hrest⟩ := htok
    have hcount := tokenizes_length .past_mapping ls save hrest
    simp only [prepare_xindex, hmap, hfirst]
    rw [prepare_loop_lost len heap ls l after save [] _ h hrest (by omega)]
    simp

theorem encode_replicate_length (n : Nat) (l : List Byte) :
    (encode (List.replicate n l)).length = n * (l.length + 1) := by
  induction n with
  | zero => simp [encode]
  | succ n ih =>
    simp only [List.replicate_succ, encode, List.length_append, List.length_cons, ih]
    ring

/-- C4 at load files whose size is a multiple of the 4096 bytes of a page:
512 lines `I 00001` with keys of 5 bytes (4096 bytes), and 4096 lines
`I 00000001` with keys of 8 bytes (45056 bytes), each line with its newline.
In both, `prepare_xindex` has issued one insert less than there are lines
when its next `strtok_r` reads outside the mapping, which holds no byte after
the last newline. -/
theorem prepare_xindex_page_multiple_file :
    prepare_xindex 4096 5 (fun _ => []) (encode (List.replicate 512 short_load_line)) =
      some ⟨.past_mapping,
        List.replicate 511 (.insert ⟨5, 8, [48, 48, 48, 48, 49, 0, 0, 0, 0, 0, 0, 0, 0]⟩)⟩ ∧
    prepare_xindex 4096 8 (fun _ => []) (encode (List.replicate 4096 long_load_line)) =
      some ⟨.past_mapping,
        List.replicate 4095
          (.insert ⟨8, 8, [48, 48, 48, 48, 48, 48, 48, 49, 0, 0, 0, 0, 0, 0, 0, 0]⟩)⟩ := by
  constructor
  · rw [prepare_xindex_page_multiple 4096 5 _ _
      (by
        intro l hl
        rw [List.eq_of_mem_replicate hl]
        exact ⟨by simp [clean, short_load_line], by simp [short_load_line]⟩)
      (List.ne_nil_of_length_pos (by rw [List.length_replicate]; norm_num))
      (by rw [encode_replicate_length]; rfl)]
    rw [List.dropLast_replicate, List.map_replicate]
    rfl
  · rw [prepare_xindex_page_multiple 4096 8 _ _
      (by
        intro l hl
        rw [List.eq_of_mem_replicate hl]
        exact ⟨by simp [clean, long_load_line], by simp [long_load_line]⟩)
      (List.ne_nil_of_length_pos (by rw [List.length_replicate]; norm_num))
      (by rw [encode_replicate_length]; rfl)]
    rw [List.dropLast_replicate, List.map_replicate]
    rfl

/-- The three-line load file of the scenario (33 bytes) gives three inserts,
in file order. -/
theorem prepare_xindex_scenario :
    prepare_xindex 4096 8 (fun _ => []) (file_of example_load true) =
      some ⟨.done,
        [IndexCall.insert ⟨8, 8, [48, 48, 48, 48, 48, 48, 48, 49, 0, 0, 0, 0, 0, 0, 0, 0]⟩,
         IndexCall.insert ⟨8, 8, [48, 48, 48, 48, 48, 48, 48, 50, 0, 0, 0, 0, 0, 0, 0, 0]⟩,
         IndexCall.insert ⟨8, 8, [48, 48, 48, 48, 48, 48, 48, 51, 0, 0, 0, 0, 0, 0, 0, 0]⟩]⟩ :=
  prepare_xindex_inserts_every_line 4096 8 (fun _ => []) example_load true
    (by
      intro l hl
      simp only [example_load, List.mem_cons, List.mem_singleton, List.not_mem_nil,
        or_false] at hl
      rcases hl with rfl | rfl | rfl <;> exact ⟨by simp [clean], by simp⟩)
    (by norm_num) (by simp [file_of, encode, example_load])

/-! ### One pass of the replay loop -/

section Worker

variable {D : Type}

theorem read_running_true (env : Env D) (obs : List Bool)
    (h : ∀ b ∈ obs, b = true) (hrest : env.running_rest = true) :
    read_running env obs = (true, obs.tail) := by
  cases obs with
  | nil => simp [read_running, hrest]
  | cons b bs => simp [read_running, h b (by simp)]

theorem fg_step_continue (len : Nat) (env : Env D) (w : Worker D)
    (l after save : List Byte) (obs : List Bool) (key : Key len) (next : Token)
    (call : IndexCall)
    (hp : w.phase = .running) (ht : w.token = some ⟨l, after, save⟩)
    (hr : read_running env w.obs = (true, obs)) (hg : env.training_threads w.k = 0)
    (hk : Key.ofCStr len ((l ++ after).drop 2) = some key)
    (hn : strtok_r save = .token next)
    (hd : dispatch env w.k (l.headD 0) key = some call) :
    fg_step len env w =
      { phase := .running, token := some next, obs := obs, k := w.k + 1,
        param := { w.param with
          latency_sum := env.dadd w.param.latency_sum (env.elapsed w.k)
          latency_count := int_incr w.param.latency_count
          throughput := (w.param.throughput + 1) % 2 ^ 64 },
        calls := w.calls ++ [call] } := by
  simp only [fg_step, hp, ht, hr, hg, hk, hn, hd, Nat.lt_irrefl, false_and, if_false]

theorem fg_step_fatal (len : Nat) (env : Env D) (w : Worker D)
    (l after save : List Byte) (obs : List Bool) (key : Key len) (next : Token)
    (hp : w.phase = .running) (ht : w.token = some ⟨l, after, save⟩)
    (hr : read_running env w.obs = (true, obs)) (hg : env.training_threads w.k = 0)
    (hk : Key.ofCStr len ((l ++ after).drop 2) = some key)
    (hn : strtok_r save = .token next)
    (hd : dispatch env w.k (l.headD 0) key = none) :
    fg_step len env w = { w with phase := .fatal, token := some next, obs := obs } := by
  simp only [fg_step, COUT_N_EXIT, hp, ht, hr, hg, hk, hn, hd, Nat.lt_irrefl, false_and,
    if_false]

theorem fg_step_last (len : Nat) (env : Env D) (w : Worker D)
    (l after save : List Byte) (obs : List Bool) (key : Key len)
    (hp : w.phase = .running) (ht : w.token = some ⟨l, after, save⟩)
    (hr : read_running env w.obs = (true, obs)) (hg : env.training_threads w.k = 0)
    (hk : Key.ofCStr len ((l ++ after).drop 2) = some key)
    (hn : strtok_r save = .null) :
    fg_step len env w =
      { w with phase := .done, token := none, obs := obs,
               param := { w.param with alive := false } } := by
  simp only [fg_step, hp, ht, hr, hg, hk, hn, Nat.lt_irrefl, false_and, if_false]

theorem fg_step_lost (len : Nat) (env : Env D) (w : Worker D)
    (l after save : List Byte) (obs : List Bool) (key : Key len)
    (hp : w.phase = .running) (ht : w.token = some ⟨l, after, save⟩)
    (hr : read_running env w.obs = (true, obs)) (hg : env.training_threads w.k = 0)
    (hk : Key.ofCStr len ((l ++ after).drop 2) = some key)
    (hn : strtok_r save = .past_mapping) :
    fg_step len env w = { w with phase := .past_mapping, obs := obs } := by
  simp only [fg_step, hp, ht, hr, hg, hk, hn, Nat.lt_irrefl, false_and, if_false]

theorem fg_step_stop (len : Nat) (env : Env D) (w : Worker D) (obs : List Bool)
    (hp : w.phase = .running) (hr : read_running env w.obs = (false, obs)) :
    fg_step len env w =
      { w with phase := .done, obs := obs, param := { w.param with alive := false } } := by
  simp only [fg_step, hp, hr]

theorem fg_step_no_token (len : Nat) (env : Env D) (w : Worker D) (obs : List Bool)
    (hp : w.phase = .running) (ht : w.token = none)
    (hr : read_running env w.obs = (true, obs)) :
    fg_step len env w =
      { w with phase := .done, obs := obs, param := { w.param with alive := false } } := by
  simp only [fg_step, hp, hr, ht]

theorem fg_step_idle (len : Nat) (env : Env D) (w : Worker D) (hp : w.phase ≠ .running) :
    fg_step len env w = w := by
  unfold fg_step
  split
  · rename_i h; exact absurd h hp
  · rfl

theorem run_fg_loop_idle (len : Nat) (env : Env D) (fuel : Nat) :
    ∀ w : Worker D, w.phase ≠ .running → run_fg_loop len env fuel w = w := by
  induction fuel with
  | zero => intro w _; rfl
  | succ fuel ih =>
    intro w hp
    simp only [run_fg_loop, fg_step_idle len env w hp]
    exact ih w hp

theorem dispatch_supported {len : Nat} (env : Env D) (k : Nat) (op : Byte) (key : Key len)
    (h : op = 114 ∨ op = 117 ∨ op = 105 ∨ op = 115) :
    ∃ call, dispatch env k op key = some call := by
  rcases h with rfl | rfl | rfl | rfl
  · exact ⟨.lookup key.buf, by simp [dispatch]⟩
  · exact ⟨.update (build_kv (env.heap k) key), by simp [dispatch]⟩
  · exact ⟨.insert (build_kv (env.heap k) key), by simp [dispatch]⟩
  · exact ⟨.scan key.buf (scan_branch (env.iter k)).1 (scan_branch (env.iter k)).2,
      by simp [dispatch]⟩

theorem dispatch_line (len : Nat) (env : Env D) (k : Nat) (l after : List Byte)
    (h : OpLine len l) :
    ∃ key call, Key.ofCStr len ((l ++ after).drop 2) = some key ∧
      dispatch env k (l.headD 0) key = some call ∧
      expected_calls len env k [l] = [call] := by
  obtain ⟨h1, h2⟩ := Key.ofCStr_line len l after h.2.1
  obtain ⟨call, hc⟩ := dispatch_supported env k (l.headD 0)
    (⟨payload len l, payload_length len l h.2.1⟩ : Key len) h.2.2
  refine ⟨_, call, h1, hc, ?_⟩
  simp only [expected_calls, h2, hc, Option.toList, List.append_nil]

theorem expected_calls_cons (len : Nat) (env : Env D) (k : Nat) (l : List Byte)
    (ls : List (List Byte)) :
    expected_calls len env k (l :: ls) =
      expected_calls len env k [l] ++ expected_calls len env (k + 1) ls := by
  simp [expected_calls]

theorem expected_calls_length (len : Nat) (env : Env D) (ls : List (List Byte)) :
    ∀ k, (∀ l ∈ ls, OpLine len l) → (expected_calls len env k ls).length = ls.length := by
  induction ls with
  | nil => intro k _; rfl
  | cons l ls ih =>
    intro k h
    obtain ⟨key, call, _, _, hc⟩ := dispatch_line len env k l [] (h l (by simp))
    rw [expected_calls_cons, hc]
    simp [ih (k + 1) (fun x hx => h x (by simp [hx]))]

theorem int_incr_iterate (n : Nat) : ∀ x : Int, 0 ≤ x → x + n < 2 ^ 31 →
    int_incr^[n] x = x + n := by
  induction n with
  | zero => intro x _ _; simp
  | succ n ih =>
    intro x h0 h1
    have hx : int_incr x = x + 1 := by
      unfold int_incr
      rw [if_pos]
      push_cast at h1
      omega
    rw [Function.iterate_succ_apply, hx, ih (x + 1) (by omega) (by push_cast at h1 ⊢; omega)]
    push_cast
    omega

theorem spin_wait_true (env : Env D) (obs : List Bool)
    (h : ∀ b ∈ obs, b = true) (hrest : env.running_rest = true) :
    spin_wait env obs = some obs.tail := by
  cases obs with
  | nil => simp [spin_wait, hrest]
  | cons b bs => simp [spin_wait, h b (by simp)]

theorem spin_wait_falses (env : Env D) (spins : Nat) (obs : List Bool) :
    spin_wait env (List.replicate spins false ++ true :: obs) = some obs := by
  induction spins with
  | zero => simp [spin_wait]
  | succ n ih => simpa [spin_wait, List.replicate_succ] using ih

theorem opLine_nonempty (len : Nat) (l : List Byte) (h : OpLine len l) : clean l ∧ l ≠ [] := by
  refine ⟨h.1, ?_⟩
  intro he
  have h2 := h.2.1
  rw [he] at h2
  simp at h2

/-- The replay loop while `running` stays true, on a mapping that ends in a
NUL: from a state holding the token `l`, with the lines `ls` still to come,
the loop dispatches `l` and all of `ls` but its last line, and is left by the
`break` on the last line. -/
theorem run_fg_loop_replay (len : Nat) (env : Env D) (hrest : env.running_rest = true)
    (hgate : ∀ k, env.training_threads k = 0) (ls : List (List Byte)) :
    ∀ (l after save : List Byte) (w : Worker D) (fuel : Nat),
      w.phase = .running → w.token = some ⟨l, after, save⟩ → (∀ b ∈ w.obs, b = true) →
      tokenizes .null save ls → (∀ x ∈ (l :: ls).dropLast, OpLine len x) →
      2 + len ≤ ((l :: ls).getLast (by simp)).length →
      w.param.throughput < 2 ^ 64 → ls.length + 1 ≤ fuel →
      (run_fg_loop len env fuel w).phase = .done ∧
      (run_fg_loop len env fuel w).param.alive = false ∧
      (run_fg_loop len env fuel w).param.throughput = (w.param.throughput + ls.length) % 2 ^ 64 ∧
      (run_fg_loop len env fuel w).param.latency_count = int_incr^[ls.length] w.param.latency_count ∧
      (run_fg_loop len env fuel w).param.latency_sum =
        sum_elapsed env w.k ls.length w.param.latency_sum ∧
      (run_fg_loop len env fuel w).param.thread_id = w.param.thread_id ∧
      (run_fg_loop len env fuel w).calls =
        w.calls ++ expected_calls len env w.k (l :: ls).dropLast := by
  induction ls with
  | nil =>
    intro l after save w fuel hp ht hobs htok _ hlast hthr hfuel
    obtain ⟨fuel, rfl⟩ : ∃ f, fuel = f + 1 := ⟨fuel - 1, by omega⟩
    have hstep := fg_step_last len env w l after save w.obs.tail _ hp ht
      (read_running_true env w.obs hobs hrest) (hgate w.k)
      (Key.ofCStr_line len l after (by simpa using hlast)).1 htok
    simp only [run_fg_loop, hstep]
    rw [run_fg_loop_idle len env fuel _ (by simp)]
    have hmod := Nat.mod_eq_of_lt hthr
    simp [sum_elapsed, expected_calls]
    omega
  | cons l' ls ih =>
    intro l after save w fuel hp ht hobs htok hops hlast hthr hfuel
    obtain ⟨fuel, rfl⟩ : ∃ f, fuel = f + 1 := ⟨fuel - 1, by omega⟩
    obtain ⟨after', save', hnext, _, htok'⟩ := htok
    have hl : OpLine len l := hops l (by simp [List.dropLast])
    obtain ⟨key, call, hkey, hcall, hexp⟩ := dispatch_line len env w.k l after hl
    have hstep := fg_step_continue len env w l after save w.obs.tail key _ call hp ht
      (read_running_true env w.obs hobs hrest) (hgate w.k) hkey hnext hcall
    have hops' : ∀ x ∈ (l' :: ls).dropLast, OpLine len x := by
      intro x hx
      exact hops x (by simp only [List.dropLast_cons₂, List.mem_cons]; exact Or.inr hx)
    have hih := ih l' after' save' (fg_step len env w) fuel (by rw [hstep])
      (by rw [hstep]) (by rw [hstep]; exact fun b hb => hobs b (List.mem_of_mem_tail hb))
      htok' hops' (by simpa using hlast) (by rw [hstep]; exact Nat.mod_lt _ (by norm_num))
      (by simp only [List.length_cons] at hfuel; omega)
    simp only [run_fg_loop]
    obtain ⟨h1, h2, h3, h4, h5, h6, h7⟩ := hih
    refine ⟨h1, h2, ?_, ?_, ?_, ?_, ?_⟩
    · rw [h3, hstep]
      simp only [List.length_cons, Nat.mod_add_mod]
      congr 1
      omega
    · rw [h4, hstep, List.length_cons, Function.iterate_succ_apply]
    · rw [h5, hstep, List.length_cons, sum_elapsed]
    · rw [h6, hstep]
    · rw [h7, hstep]
      simp only [List.dropLast_cons₂]
      rw [expected_calls_cons len env w.k l, hexp]
      simp

/-- A worker with `running` true at every read, the gate not held and the
counters at 0, on a trace whose mapping `mem` ends in a NUL and holds the
lines `init` followed by `last`: it issues exactly the calls of the lines of
`init`, in trace order, each for the opcode at byte 0 and the key at bytes
`2 .. 2 + MAX_KEY_SIZE - 1` of its line; `last` is not dispatched, whatever
its opcode; the worker ends with `throughput = latency_count = n - 1` and
`alive = false`. -/
theorem run_fg_replay_mem (len : Nat) (env : Env D) (file mem : List Byte)
    (init : List (List Byte)) (last : List Byte) (obs : List Bool) (param : FGParam D)
    (hmap : mmap env.page_size file = some mem)
    (htok : tokenizes .null mem (init ++ [last]))
    (hobs : ∀ b ∈ obs, b = true) (hrest : env.running_rest = true)
    (hgate : ∀ k, env.training_threads k = 0)
    (hinit : ∀ l ∈ init, OpLine len l) (hlast : 2 + len ≤ last.length)
    (hthr : param.throughput = 0) (hcnt : param.latency_count = 0)
    (hn : init.length < 2 ^ 31) :
    ∃ w, run_fg len env file obs param = some w ∧
      w.phase = .done ∧ w.calls = expected_calls len env 0 init ∧
      w.calls.length = init.length ∧ w.param.throughput = init.length ∧
      w.param.latency_count = init.length ∧ w.param.alive = false := by
  have hspin := spin_wait_true env obs hobs hrest
  have htail : ∀ b ∈ obs.tail, b = true := fun b hb => hobs b (List.mem_of_mem_tail hb)
  obtain ⟨l, ls, hls⟩ : ∃ l ls, init ++ [last] = l :: ls := by
    cases init with
    | nil => exact ⟨last, [], rfl⟩
    | cons a as => exact ⟨a, as ++ [last], rfl⟩
  have hdrop : (l :: ls).dropLast = init := by rw [← hls]; simp
  have hget : (l :: ls).getLast (by simp) = last := by
    have : (init ++ [last]).getLast (by simp) = last := by simp
    simpa [hls] using this
  have hlen : ls.length = init.length := by
    have := congrArg List.length hls
    simp at this
    omega
  rw [hls] at htok
  obtain ⟨after, save, hfirst, hlt, hrest'⟩ := htok
  have hcount := tokenizes_length .null ls save hrest'
  have hloop := run_fg_loop_replay len env hrest hgate ls l after save
    { phase := .running, token := some ⟨l, after, save⟩,
      obs := obs.tail, k := 0, param := param, calls := [] }
    (mem.length + 1) rfl rfl htail hrest'
    (by rw [hdrop]; exact hinit) (by rw [hget]; exact hlast) (by simp [hthr]) (by omega)
  obtain ⟨h1, h2, h3, h4, _, _, h7⟩ := hloop
  simp only [hthr, hcnt, Nat.zero_add, List.nil_append, hdrop, hlen] at h3 h4 h7
  refine ⟨_, by simp only [run_fg, hmap, hfirst, hspin], h1, h7, ?_, ?_, ?_, h2⟩
  · rw [h7, expected_calls_length len env init 0 hinit]
  · rw [h3]; exact Nat.mod_eq_of_lt (by omega)
  · rw [h4, int_incr_iterate init.length 0 (le_refl 0) (by push_cast; omega)]
    simp

/-- The same for a trace file given by its lines (the last one with or
without its newline) whose size is not a multiple of the page size. -/
theorem run_fg_replay (len : Nat) (env : Env D)
    (init : List (List Byte)) (last : List Byte) (final_newline : Bool)
    (obs : List Bool) (param : FGParam D)
    (hobs : ∀ b ∈ obs, b = true) (hrest : env.running_rest = true)
    (hgate : ∀ k, env.training_threads k = 0)
    (hinit : ∀ l ∈ init, OpLine len l) (hlast : clean last ∧ 2 + len ≤ last.length)
    (hpage : 0 < env.page_size)
    (hsize : (file_of (init ++ [last]) final_newline).length % env.page_size ≠ 0)
    (hthr : param.throughput = 0) (hcnt : param.latency_count = 0)
    (hn : init.length < 2 ^ 31) :
    ∃ w, run_fg len env (file_of (init ++ [last]) final_newline) obs param = some w ∧
      w.phase = .done ∧ w.calls = expected_calls len env 0 init ∧
      w.calls.length = init.length ∧ w.param.throughput = init.length ∧
      w.param.latency_count = init.length ∧ w.param.alive = false := by
  have hne : ∀ l ∈ init ++ [last], clean l ∧ l ≠ [] := by
    intro l hl
    rcases List.mem_append.mp hl with h | h
    · exact opLine_nonempty len l (hinit l h)
    · rw [List.mem_singleton.mp h]
      refine ⟨hlast.1, ?_⟩
      intro he
      have h2 := hlast.2
      rw [he] at h2
      simp at h2
  obtain ⟨mem, hmap, htok⟩ := tokenizes_mmap env.page_size _ final_newline hne hpage hsize
  exact run_fg_replay_mem len env _ mem init last obs param hmap htok hobs hrest hgate hinit
    hlast.2 hthr hcnt hn

/-- A trace file that holds newlines only, and not a multiple of the page
size of them: the worker dispatches nothing and ends with `alive = false`. -/
theorem run_fg_no_line (len : Nat) (env : Env D) (m : Nat) (obs : List Bool)
    (param : FGParam D) (hobs : ∀ b ∈ obs, b = true) (hrest : env.running_rest = true)
    (hpage : 0 < env.page_size) (hsize : m % env.page_size ≠ 0) :
    ∃ w, run_fg len env (List.replicate m 10) obs param = some w ∧
      w.phase = .done ∧ w.calls = [] ∧ w.param.throughput = param.throughput ∧
      w.param.latency_count = param.latency_count ∧ w.param.alive = false := by
  obtain ⟨p, hp⟩ := mmap_padded env.page_size (List.replicate m 10) hpage (by simpa using hsize)
  have hfirst : strtok_r (List.replicate m 10 ++ 0 :: List.replicate p 0) = .null := by
    rw [strtok_r_newlines, strtok_r_zero]
  have hspin := spin_wait_true env obs hobs hrest
  have htail : ∀ b ∈ obs.tail, b = true := fun b hb => hobs b (List.mem_of_mem_tail hb)
  have hstep := fg_step_no_token len env
    { phase := .running, token := none, obs := obs.tail, k := 0, param := param, calls := [] }
    obs.tail.tail rfl rfl (read_running_true env obs.tail htail hrest)
  refine ⟨run_fg_loop len env
    ((List.replicate m (10 : Byte) ++ (0 : Byte) :: List.replicate p 0).length + 1)
    { phase := .running, token := none, obs := obs.tail, k := 0, param := param, calls := [] },
    by simp only [run_fg, hp, hfirst, hspin], ?_⟩
  simp only [run_fg_loop, hstep]
  rw [run_fg_loop_idle len env _ _ (by simp)]
  exact ⟨rfl, rfl, rfl, rfl, rfl⟩

/-- C10 at the empty trace, a file of 0 bytes: `mmap` returns `MAP_FAILED`,
the first `strtok_r` reads through it and the process is killed before
`ready_threads++`; the worker never reaches `thread_param.alive = false`, and
its record is as `run_benchmark` left it. -/
theorem run_fg_empty_trace_faults (len : Nat) (env : Env D) (obs : List Bool)
    (param : FGParam D) :
    run_fg len env [] obs param =
      some { phase := .segv, token := none, obs := obs, k := 0, param := param, calls := [] } ∧
    (run_fg 8 example_env [] [] example_param).map
        (fun w => (w.phase, w.param.throughput, w.param.alive)) = some (.segv, 0, true) := by
  constructor
  · simp [run_fg, mmap]
  · decide

/-- C1 at the trace of the scenario, `r 00000001\\nu 00000002\\ni 00000003\\n`,
with the counters at 0, `running` true and the gate not held: the worker ends
with `throughput = 2`, `latency_count = 2` and `alive = false`; the insert of
the third line is never issued. -/
theorem run_fg_scenario_counts_two :
    (run_fg 8 example_env example_trace [] example_param).map
        (fun w => (w.phase, w.param.throughput, w.param.latency_count, w.param.alive,
          w.calls.length)) =
      some (.done, 2, 2, false, 2) := by
  obtain ⟨w, hw, h1, _, h3, h4, h5, h6⟩ := run_fg_replay 8 example_env
    [[114, 32, 48, 48, 48, 48, 48, 48, 48, 49], [117, 32, 48, 48, 48, 48, 48, 48, 48, 50]]
    [105, 32, 48, 48, 48, 48, 48, 48, 48, 51] true [] example_param
    (by simp) rfl (fun _ => rfl)
    (by
      intro l hl
      simp only [List.mem_cons, List.mem_singleton, List.not_mem_nil, or_false] at hl
      rcases hl with rfl | rfl <;> exact ⟨by simp [clean], by simp, by simp⟩)
    ⟨by simp [clean], by simp⟩ (by decide) (by decide) rfl rfl (by norm_num)
  have hfile : file_of ([[114, 32, 48, 48, 48, 48, 48, 48, 48, 49],
      [117, 32, 48, 48, 48, 48, 48, 48, 48, 50]] ++ [[105, 32, 48, 48, 48, 48, 48, 48, 48, 51]])
      true = example_trace := by decide
  rw [hfile] at hw
  rw [hw]
  simp only [Option.map_some', h1, h3, h4, h5, h6]
  rfl

/-- C2 at the trace `r 00000001\\nd 00000002\\n`: the `d` line is the last
one, the worker leaves the loop before the `switch`, ends normally with
`alive = false` and `throughput = 1`, and the process is not ended. -/
theorem run_fg_delete_on_last_line_not_fatal :
    (run_fg 8 example_env example_delete_last [] example_param).map
        (fun w => (w.phase, w.param.throughput, w.param.latency_count, w.param.alive)) =
      some (.done, 1, 1, false) := by
  obtain ⟨w, hw, h1, _, _, h4, h5, h6⟩ := run_fg_replay 8 example_env
    [[114, 32, 48, 48, 48, 48, 48, 48, 48, 49]]
    [100, 32, 48, 48, 48, 48, 48, 48, 48, 50] true [] example_param
    (by simp) rfl (fun _ => rfl)
    (by
      intro l hl
      simp only [List.mem_singleton] at hl
      rw [hl]
      exact ⟨by simp [clean], by simp, by simp⟩)
    ⟨by simp [clean], by simp⟩ (by decide) (by decide) rfl rfl (by norm_num)
  have hfile : file_of ([[114, 32, 48, 48, 48, 48, 48, 48, 48, 49]] ++
      [[100, 32, 48, 48, 48, 48, 48, 48, 48, 50]]) true = example_delete_last := by decide
  rw [hfile] at hw
  rw [hw]
  simp only [Option.map_some', h1, h4, h5, h6]
  rfl

/-- The replay loop while `running` stays true, on a mapping that ends with
the newline of its last line: the loop dispatches `l` and all of `ls` but its
last line, and on that line its `strtok_r` reads outside the mapping. -/
theorem run_fg_loop_lost (len : Nat) (env : Env D) (hrest : env.running_rest = true)
    (hgate : ∀ k, env.training_threads k = 0) (ls : List (List Byte)) :
    ∀ (l after save : List Byte) (w : Worker D) (fuel : Nat),
      w.phase = .running → w.token = some ⟨l, after, save⟩ → (∀ b ∈ w.obs, b = true) →
      tokenizes .past_mapping save ls → (∀ x ∈ (l :: ls).dropLast, OpLine len x) →
      2 + len ≤ ((l :: ls).getLast (by simp)).length →
      w.param.throughput < 2 ^ 64 → ls.length + 1 ≤ fuel →
      (run_fg_loop len env fuel w).phase = .past_mapping ∧
      (run_fg_loop len env fuel w).param.alive = w.param.alive ∧
      (run_fg_loop len env fuel w).param.throughput = (w.param.throughput + ls.length) % 2 ^ 64 ∧
      (run_fg_loop len env fuel w).calls =
        w.calls ++ expected_calls len env w.k (l :: ls).dropLast := by
  induction ls with
  | nil =>
    intro l after save w fuel hp ht hobs htok _ hlast hthr hfuel
    obtain ⟨fuel, rfl⟩ : ∃ f, fuel = f + 1 := ⟨fuel - 1, by omega⟩
    have hstep := fg_step_lost len env w l after save w.obs.tail _ hp ht
      (read_running_true env w.obs hobs hrest) (hgate w.k)
      (Key.ofCStr_line len l after (by simpa using hlast)).1 htok
    simp only [run_fg_loop, hstep]
    rw [run_fg_loop_idle len env fuel _ (by simp)]
    have hmod := Nat.mod_eq_of_lt hthr
    simp [expected_calls]
    omega
  | cons l' ls ih =>
    intro l after save w fuel hp ht hobs htok hops hlast hthr hfuel
    obtain ⟨fuel, rfl⟩ : ∃ f, fuel = f + 1 := ⟨fuel - 1, by omega⟩
    obtain ⟨after', save', hnext, _, htok'⟩ := htok
    have hl : OpLine len l := hops l (by simp [List.dropLast])
    obtain ⟨key, call, hkey, hcall, hexp⟩ := dispatch_line len env w.k l after hl
    have hstep := fg_step_continue len env w l after save w.obs.tail key _ call hp ht
      (read_running_true env w.obs hobs hrest) (hgate w.k) hkey hnext hcall
    have hops' : ∀ x ∈ (l' :: ls).dropLast, OpLine len x := by
      intro x hx
      exact hops x (by simp only [List.dropLast_cons₂, List.mem_cons]; exact Or.inr hx)
    have hih := ih l' after' save' (fg_step len env w) fuel (by rw [hstep])
      (by rw [hstep]) (by rw [hstep]; exact fun b hb => hobs b (List.mem_of_mem_tail hb))
      htok' hops' (by simpa using hlast) (by rw [hstep]; exact Nat.mod_lt _ (by norm_num))
      (by simp only [List.length_cons] at hfuel; omega)
    simp only [run_fg_loop]
    obtain ⟨h1, h2, h3, h7⟩ := hih
    refine ⟨h1, ?_, ?_, ?_⟩
    · rw [h2, hstep]
    · rw [h3, hstep]
      simp only [List.length_cons, Nat.mod_add_mod]
      congr 1
      omega
    · rw [h7, hstep]
      simp only [List.dropLast_cons₂]
      rw [expected_calls_cons len env w.k l, hexp]
      simp

/-- A worker with `running` true at every read on a trace of
newline-terminated lines whose size is a multiple of the page size: after the
calls of the lines but the last, its `strtok_r` reads outside the mapping,
which holds no byte after the last newline. -/
theorem run_fg_page_multiple (len : Nat) (env : Env D)
    (init : List (List Byte)) (last : List Byte) (obs : List Bool) (param : FGParam D)
    (hobs : ∀ b ∈ obs, b = true) (hrest : env.running_rest = true)
    (hgate : ∀ k, env.training_threads k = 0)
    (hinit : ∀ l ∈ init, OpLine len l) (hlast : clean last ∧ 2 + len ≤ last.length)
    (hsize : (encode (init ++ [last])).length % env.page_size = 0)
    (hthr : param.throughput = 0) (hn : init.length < 2 ^ 64) :
    ∃ w, run_fg len env (encode (init ++ [last])) obs param = some w ∧
      w.phase = .past_mapping ∧ w.calls = expected_calls len env 0 init ∧
      w.param.throughput = init.length ∧ w.param.alive = param.alive := by
  have hspin := spin_wait_true env obs hobs hrest
  have htail : ∀ b ∈ obs.tail, b = true := fun b hb => hobs b (List.mem_of_mem_tail hb)
  have hne : ∀ l ∈ init ++ [last], clean l ∧ l ≠ [] := by
    intro l hl
    rcases List.mem_append.mp hl with h | h
    · exact opLine_nonempty len l (hinit l h)
    · rw [List.mem_singleton.mp h]
      refine ⟨hlast.1, ?_⟩
      intro he
      have h2 := hlast.2
      rw [he] at h2
      simp at h2
  obtain ⟨hmap, htok⟩ := tokenizes_mmap_exact env.page_size _ hne (by simp) hsize
  obtain ⟨l, ls, hls⟩ : ∃ l ls, init ++ [last] = l :: ls := by
    cases init with
    | nil => exact ⟨last, [], rfl⟩
    | cons a as => exact ⟨a, as ++ [last], rfl⟩
  have hdrop : (l :: ls).dropLast = init := by rw [← hls]; simp
  have hget : (l :: ls).getLast (by simp) = last := by
    have : (init ++ [last]).getLast (by simp) = last := by simp
    simpa [hls] using this
  have hlen : ls.length = init.length := by
    have := congrArg List.length hls
    simp at this
    omega
  rw [hls] at htok hmap ⊢
  obtain ⟨after, save, hfirst, hlt, hrest'⟩ := htok
  have hcount := tokenizes_length .past_mapping ls save hrest'
  have hloop := run_fg_loop_lost len env hrest hgate ls l after save
    { phase := .running, token := some ⟨l, after, save⟩,
      obs := obs.tail, k := 0, param := param, calls := [] }
    ((encode (l :: ls)).length + 1) rfl rfl htail hrest'
    (by rw [hdrop]; exact hinit) (by rw [hget]; exact hlast.2) (by simp [hthr]) (by omega)
  obtain ⟨h1, h2, h3, h7⟩ := hloop
  simp only [hthr, Nat.zero_add, List.nil_append, hdrop, hlen] at h3 h7
  refine ⟨_, by simp only [run_fg, hmap, hfirst, hspin], h1, h7, ?_, h2⟩
  rw [h3]; exact Nat.mod_eq_of_lt hn

/-- The replay loop when `running` is read true `j` times and then false,
with more than `j` lines returned by `strtok_r`: the first `j` lines are
dispatched and the loop is left at the read that returns false. -/
theorem run_fg_loop_cancel (len : Nat) (env : Env D) (fin : Scan)
    (hgate : ∀ k, env.training_threads k = 0) (j : Nat) :
    ∀ (ls : List (List Byte)) (l after save : List Byte) (w : Worker D) (fuel : Nat)
      (rest : List Bool),
      w.phase = .running → w.token = some ⟨l, after, save⟩ →
      w.obs = List.replicate j true ++ false :: rest →
      tokenizes fin save ls → j ≤ ls.length → (∀ x ∈ (l :: ls).take j, OpLine len x) →
      w.param.throughput < 2 ^ 64 → j + 1 ≤ fuel →
      (run_fg_loop len env fuel w).phase = .done ∧
      (run_fg_loop len env fuel w).param.alive = false ∧
      (run_fg_loop len env fuel w).param.throughput = (w.param.throughput + j) % 2 ^ 64 ∧
      (run_fg_loop len env fuel w).param.latency_count = int_incr^[j] w.param.latency_count ∧
      (run_fg_loop len env fuel w).obs = rest ∧
      (run_fg_loop len env fuel w).calls =
        w.calls ++ expected_calls len env w.k ((l :: ls).take j) := by
  induction j with
  | zero =>
    intro ls l after save w fuel rest hp _ hobs _ _ _ hthr hfuel
    obtain ⟨fuel, rfl⟩ : ∃ f, fuel = f + 1 := ⟨fuel - 1, by omega⟩
    have hstep := fg_step_stop len env w rest hp (by rw [hobs]; rfl)
    simp only [run_fg_loop, hstep]
    rw [run_fg_loop_idle len env fuel _ (by simp)]
    have hmod := Nat.mod_eq_of_lt hthr
    simp [expected_calls]
    omega
  | succ j ih =>
    intro ls l after save w fuel rest hp ht hobs htok hj hops hthr hfuel
    obtain ⟨fuel, rfl⟩ : ∃ f, fuel = f + 1 := ⟨fuel - 1, by omega⟩
    cases ls with
    | nil => simp at hj
    | cons l' ls =>
      obtain ⟨after', save', hnext, _, htok'⟩ := htok
      have hl : OpLine len l := hops l (by simp)
      obtain ⟨key, call, hkey, hcall, hexp⟩ := dispatch_line len env w.k l after hl
      have hstep := fg_step_continue len env w l after save
        (List.replicate j true ++ false :: rest) key _ call hp ht
        (by rw [hobs]; rfl) (hgate w.k) hkey hnext hcall
      have hops' : ∀ x ∈ (l' :: ls).take j, OpLine len x := by
        intro x hx
        exact hops x (by simp only [List.take_succ_cons, List.mem_cons]; exact Or.inr hx)
      have hih := ih ls l' after' save' (fg_step len env w) fuel rest (by rw [hstep])
        (by rw [hstep]) (by rw [hstep]) htok' (by simp only [List.length_cons] at hj; omega)
        hops' (by rw [hstep]; exact Nat.mod_lt _ (by norm_num)) (by omega)
      simp only [run_fg_loop]
      obtain ⟨h1, h2, h3, h4, h5, h6⟩ := hih
      refine ⟨h1, h2, ?_, ?_, h5, ?_⟩
      · rw [h3, hstep]
        simp only [Nat.mod_add_mod]
        congr 1
        omega
      · rw [h4, hstep, Function.iterate_succ_apply]
      · rw [h6, hstep]
        simp only [List.take_succ_cons]
        rw [expected_calls_cons len env w.k l, hexp]
        simp

/-- The same for `run_fg` on a mapping whose first calls of `strtok_r` return
the lines `toks`. -/
theorem run_fg_cancel_mem (len : Nat) (env : Env D) (file mem : List Byte) (fin : Scan)
    (toks : List (List Byte)) (spins j : Nat) (rest : List Bool) (param : FGParam D)
    (hmap : mmap env.page_size file = some mem) (htok : tokenizes fin mem toks)
    (hgate : ∀ k, env.training_threads k = 0) (hj : j < toks.length)
    (hops : ∀ l ∈ toks.take j, OpLine len l)
    (hthr : param.throughput = 0) (hcnt : param.latency_count = 0) (hn : j < 2 ^ 31) :
    ∃ w, run_fg len env file
        (List.replicate spins false ++ true :: (List.replicate j true ++ false :: rest))
        param = some w ∧
      w.phase = .done ∧ w.param.alive = false ∧ w.param.throughput = j ∧
      w.param.latency_count = j ∧ w.calls = expected_calls len env 0 (toks.take j) ∧
      w.calls.length = j := by
  cases toks with
  | nil => simp at hj
  | cons l ls =>
    obtain ⟨after, save, hfirst, hlt, hrest'⟩ := htok
    have hloop := run_fg_loop_cancel len env fin hgate j ls l after save
      { phase := .running, token := some ⟨l, after, save⟩,
        obs := List.replicate j true ++ false :: rest, k := 0, param := param, calls := [] }
      (mem.length + 1) rest rfl rfl rfl hrest'
      (by simp only [List.length_cons] at hj; omega) hops (by simp [hthr])
      (by
        have := tokenizes_length fin ls save hrest'
        simp only [List.length_cons] at hj
        omega)
    obtain ⟨h1, h2, h3, h4, _, h6⟩ := hloop
    simp only [hthr, hcnt, Nat.zero_add, List.nil_append] at h3 h4 h6
    refine ⟨_, by simp only [run_fg, hmap, hfirst, spin_wait_falses], h1, h2, ?_, ?_, h6, ?_⟩
    · rw [h3]; exact Nat.mod_eq_of_lt (by omega)
    · rw [h4, int_incr_iterate j 0 (le_refl 0) (by push_cast; omega)]
      simp
    · rw [h6, expected_calls_length len env _ 0 hops]
      simp only [List.length_take, List.length_cons] at hj ⊢
      omega

/-- The lines that `strtok_r` returns on the mapping of a file of lines: all
of them when the file ends with a newline or its size is not a multiple of the
page size, and else all but the last. -/
theorem tokenizes_file_head (page : Nat) (lines : List (List Byte)) (final_newline : Bool)
    (j : Nat) (h : ∀ l ∈ lines, clean l ∧ l ≠ []) (hpage : 0 < page) (hj : j < lines.length)
    (hmap : final_newline = true ∨ (file_of lines final_newline).length % page ≠ 0 ∨
      j + 1 < lines.length) :
    ∃ mem fin toks, mmap page (file_of lines final_newline) = some mem ∧
      tokenizes fin mem toks ∧ j < toks.length ∧ toks.take j = lines.take j := by
  by_cases hs : (file_of lines final_newline).length % page = 0
  · cases final_newline with
    | true =>
      have hne : lines ≠ [] := by
        intro he; rw [he] at hj; simp at hj
      have hfile : file_of lines true = encode lines := by simp [file_of]
      rw [hfile] at hs ⊢
      obtain ⟨h1, h2⟩ := tokenizes_mmap_exact page lines h hne hs
      exact ⟨_, _, lines, h1, h2, hj, rfl⟩
    | false =>
      have hj' : j + 1 < lines.length := by
        rcases hmap with h1 | h1 | h1
        · simp at h1
        · exact absurd hs h1
        · exact h1
      rcases List.eq_nil_or_concat lines with rfl | ⟨init, last, rfl⟩
      · simp at hj
      · rw [List.concat_eq_append] at h hs hj' ⊢
        have hfile : file_of (init ++ [last]) false = encode init ++ last := by
          simp [file_of, encode_dropLast]
        rw [hfile] at hs ⊢
        obtain ⟨h1, h2⟩ := tokenizes_mmap_open page init last h hs
        refine ⟨_, _, init, h1, h2, ?_, ?_⟩
        · simp at hj'; omega
        · rw [List.take_append_of_le_length (by simp at hj'; omega)]
  · obtain ⟨mem, h1, h2⟩ := tokenizes_mmap page lines final_newline h hpage hs
    exact ⟨mem, _, lines, h1, h2, hj, rfl⟩

/-- C6, as the code has it: the worker reads `running` before every line.
When, after the start, it reads `running` true at its first `j` loop checks
and false at the next one, and the trace holds more than `j` lines (the first
`j` with supported opcodes, gate not held, counters at 0), it dispatches
exactly the first `j` lines, leaves the loop at that check and sets
`alive = false`; no later line is dispatched.  (The trace file ends with a
newline, or its size is not a multiple of the page size, or it holds more
than `j + 1` lines: else the scan of line `j + 1` leaves the mapping.) -/
theorem run_fg_stops_when_running_cleared (len : Nat) (env : Env D)
    (lines : List (List Byte)) (final_newline : Bool) (spins j : Nat) (rest : List Bool)
    (param : FGParam D)
    (hgate : ∀ k, env.training_threads k = 0)
    (hlines : ∀ l ∈ lines, clean l ∧ l ≠ []) (hj : j < lines.length)
    (hops : ∀ l ∈ lines.take j, OpLine len l)
    (hthr : param.throughput = 0) (hcnt : param.latency_count = 0) (hn : j < 2 ^ 31)
    (hpage : 0 < env.page_size)
    (hmap : final_newline = true ∨
      (file_of lines final_newline).length % env.page_size ≠ 0 ∨ j + 1 < lines.length) :
    ∃ w, run_fg len env (file_of lines final_newline)
        (List.replicate spins false ++ true :: (List.replicate j true ++ false :: rest))
        param = some w ∧
      w.phase = .done ∧ w.param.alive = false ∧ w.param.throughput = j ∧
      w.param.latency_count = j ∧ w.calls = expected_calls len env 0 (lines.take j) ∧
      w.calls.length = j := by
  obtain ⟨mem, fin, toks, h1, h2, h3, h4⟩ :=
    tokenizes_file_head env.page_size lines final_newline j hlines hpage hj hmap
  have := run_fg_cancel_mem len env _ mem fin toks spins j rest param h1 h2 hgate h3
    (by rw [h4]; exact hops) hthr hcnt hn
  rw [h4] at this
  exact this

/-- On the three-line trace, with `running` read false twice by the spin,
then true, true once in the loop and false afterwards, the worker dispatches
one line. -/
theorem run_fg_stops_when_running_cleared_witness :
    ∃ w, run_fg 8 example_env (file_of example_lines true)
        (List.replicate 2 false ++ true :: (List.replicate 1 true ++ false :: []))
        example_param = some w ∧
      w.phase = .done ∧ w.param.alive = false ∧ w.param.throughput = 1 ∧
      w.param.latency_count = 1 ∧
      w.calls = expected_calls 8 example_env 0 (example_lines.take 1) ∧
      w.calls.length = 1 :=
  run_fg_stops_when_running_cleared 8 example_env example_lines true 2 1 [] example_param
    (fun _ => rfl)
    (by
      intro l hl
      simp only [example_lines, List.mem_cons, List.mem_singleton, List.not_mem_nil,
        or_false] at hl
      rcases hl with rfl | rfl | rfl <;> exact ⟨by simp [clean], by simp⟩)
    (by simp [example_lines])
    (by
      intro l hl
      simp only [example_lines, List.take_succ_cons, List.take_zero, List.mem_singleton] at hl
      rw [hl]
      exact ⟨by simp [clean], by simp, by simp⟩)
    rfl rfl (by norm_num) (by decide) (Or.inl rfl)

/-- C6 as stated fails: on the same trace, started with `running` true, the
worker that keeps reading `running` true dispatches two lines, and the worker
that reads it false at its second loop check dispatches one and sets
`alive = false` with a line of its trace still to dispatch. -/
theorem run_fg_dispatch_count_depends_on_running :
    (run_fg 8 example_env example_trace [true, true, true, true] example_param).map
        (fun w => (w.param.alive, w.param.throughput)) = some (false, 2) ∧
    (run_fg 8 example_env example_trace [true, true, false, false] example_param).map
        (fun w => (w.param.alive, w.param.throughput)) = some (false, 1) := by
  have hlines : ∀ l ∈ example_lines, OpLine 8 l := by
    intro l hl
    simp only [example_lines, List.mem_cons, List.mem_singleton, List.not_mem_nil,
      or_false] at hl
    rcases hl with rfl | rfl | rfl <;> exact ⟨by simp [clean], by simp, by simp⟩
  have hfile : file_of example_lines true = example_trace := by decide
  have hsize : (file_of example_lines true).length % example_env.page_size ≠ 0 := by decide
  obtain ⟨mem, hmap, htok⟩ := tokenizes_mmap example_env.page_size example_lines true
    (fun l hl => opLine_nonempty 8 l (hlines l hl)) (by decide) hsize
  rw [hfile] at hmap
  constructor
  · obtain ⟨w, hw, _, _, _, h4, _, h6⟩ := run_fg_replay_mem 8 example_env example_trace mem
      [[114, 32, 48, 48, 48, 48, 48, 48, 48, 49], [117, 32, 48, 48, 48, 48, 48, 48, 48, 50]]
      [105, 32, 48, 48, 48, 48, 48, 48, 48, 51] [true, true, true, true] example_param
      hmap htok (by simp) rfl (fun _ => rfl)
      (fun l hl => hlines l (by simp only [example_lines]; simp at hl ⊢; tauto))
      (by simp) rfl rfl (by norm_num)
    rw [hw]
    simp only [Option.map_some', h4, h6]
    rfl
  · obtain ⟨w, hw, _, h2, h3, _⟩ := run_fg_cancel_mem 8 example_env example_trace mem .null
      example_lines 0 1 [false] example_param hmap htok (fun _ => rfl)
      (by simp [example_lines])
      (fun l hl => hlines l (List.mem_of_mem_take hl)) rfl rfl (by norm_num)
    have hobs : List.replicate 0 false ++ true :: (List.replicate 1 true ++ false :: [false]) =
        [true, true, false, false] := rfl
    rw [hobs] at hw
    rw [hw]
    simp only [Option.map_some', h2, h3]

/-! ### The counters of a worker -/

/-- The shapes a pass of the loop can take: nothing moves (the thread is
not in the loop), the thread blocks on the gate, a read leaves the mapping,
the thread leaves the loop, the process is ended, or one operation is
dispatched and counted. -/
theorem fg_step_cases (len : Nat) (env : Env D) (w : Worker D) :
    (w.phase ≠ .running ∧ fg_step len env w = w) ∨
    (w.phase = .running ∧ ∃ ph obs, (ph = .blocked ∨ ph = .past_mapping) ∧
      fg_step len env w = { w with phase := ph, obs := obs }) ∨
    (w.phase = .running ∧ ∃ tok obs, fg_step len env w =
      { w with phase := .done, token := tok, obs := obs,
               param := { w.param with alive := false } }) ∨
    (w.phase = .running ∧ ∃ tok obs, fg_step len env w =
      { w with phase := .fatal, token := tok, obs := obs }) ∨
    (w.phase = .running ∧ ∃ cur next obs call, w.token = some cur ∧
      strtok_r cur.save = .token next ∧ fg_step len env w =
      { phase := .running, token := some next, obs := obs, k := w.k + 1,
        param := { w.param with
          latency_sum := env.dadd w.param.latency_sum (env.elapsed w.k)
          latency_count := int_incr w.param.latency_count
          throughput := (w.param.throughput + 1) % 2 ^ 64 },
        calls := w.calls ++ [call] }) := by
  by_cases hp : w.phase = .running
  swap
  · exact Or.inl ⟨hp, fg_step_idle len env w hp⟩
  · right
    rcases hr : read_running env w.obs with ⟨r, obs⟩
    cases r with
    | false =>
      exact Or.inr (Or.inl ⟨hp, w.token, obs, by rw [fg_step_stop len env w obs hp hr]⟩)
    | true =>
      rcases ht : w.token with _ | ⟨l, after, save⟩
      · refine Or.inr (Or.inl ⟨hp, none, obs, ?_⟩)
        simp only [fg_step, hp, hr, ht]
      · by_cases hg : 0 < env.training_threads w.k ∧ env.gate_released w.k = false
        · refine Or.inl ⟨hp, .blocked, obs, Or.inl rfl, ?_⟩
          simp only [fg_step, hp, hr, ht, hg, and_self, if_true]
        · rcases hk : Key.ofCStr len ((l ++ after).drop 2) with _ | key
          · refine Or.inl ⟨hp, .past_mapping, obs, Or.inr rfl, ?_⟩
            simp only [fg_step, hp, hr, ht, hg, hk, if_false]
          · rcases hn : strtok_r save with _ | _ | next
            · refine Or.inl ⟨hp, .past_mapping, obs, Or.inr rfl, ?_⟩
              simp only [fg_step, hp, hr, ht, hg, hk, hn, if_false]
            · refine Or.inr (Or.inl ⟨hp, none, obs, ?_⟩)
              simp only [fg_step, hp, hr, ht, hg, hk, hn, if_false]
            · rcases hd : dispatch env w.k (l.headD 0) key with _ | call
              · refine Or.inr (Or.inr (Or.inl ⟨hp, some next, obs, ?_⟩))
                simp only [fg_step, COUT_N_EXIT, hp, hr, ht, hg, hk, hn, hd, if_false]
              · refine Or.inr (Or.inr (Or.inr
                  ⟨hp, ⟨l, after, save⟩, next, obs, call, rfl, hn, ?_⟩))
                simp only [fg_step, hp, hr, ht, hg, hk, hn, hd, if_false]

theorem fg_step_alive_running (len : Nat) (env : Env D) (w : Worker D)
    (h : w.param.alive = false → w.phase ≠ .running) :
    (fg_step len env w).param.alive = false → (fg_step len env w).phase ≠ .running := by
  rcases fg_step_cases len env w with ⟨_, h1⟩ | ⟨_, ph, obs, hph, h1⟩ | ⟨_, tok, obs, h1⟩ |
    ⟨_, tok, obs, h1⟩ | ⟨hp, cur, next, obs, call, _, _, h1⟩
  · rw [h1]; exact h
  · rw [h1]; intro _; rcases hph with rfl | rfl <;> simp
  · rw [h1]; intro _; simp
  · rw [h1]; intro _; simp
  · rw [h1]; intro ha; exact absurd hp (h ha)

theorem run_fg_loop_alive_running (len : Nat) (env : Env D) (n : Nat) :
    ∀ w : Worker D, (w.param.alive = false → w.phase ≠ .running) →
      (run_fg_loop len env n w).param.alive = false →
      (run_fg_loop len env n w).phase ≠ .running := by
  induction n with
  | zero => intro w h; exact h
  | succ n ih =>
    intro w h
    exact ih (fg_step len env w) (fg_step_alive_running len env w h)

/-- C8: take the worker after any number `n` of passes of its replay loop,
started with `alive = true`.  The next pass leaves `throughput` unchanged or
adds exactly 1 to it (below the wrap of `uint64_t`), so `throughput` does not
decrease; and once `alive` is false, no number of further passes changes
`throughput`, `latency_count` or `latency_sum` (the whole record stays as it
is). -/
theorem throughput_nondecreasing_then_frozen (len : Nat) (env : Env D) (w0 : Worker D)
    (n : Nat) (h0 : w0.param.alive = true) :
    (((run_fg_loop len env n w0).param.throughput + 1 < 2 ^ 64 →
      ((fg_step len env (run_fg_loop len env n w0)).param.throughput =
          (run_fg_loop len env n w0).param.throughput ∨
        (fg_step len env (run_fg_loop len env n w0)).param.throughput =
          (run_fg_loop len env n w0).param.throughput + 1)) ∧
    ((run_fg_loop len env n w0).param.throughput + 1 < 2 ^ 64 →
      (run_fg_loop len env n w0).param.throughput ≤
        (fg_step len env (run_fg_loop len env n w0)).param.throughput)) ∧
    ((run_fg_loop len env n w0).param.alive = false →
      ∀ m, (run_fg_loop len env m (run_fg_loop len env n w0)).param =
        (run_fg_loop len env n w0).param) := by
  have hstep : (run_fg_loop len env n w0).param.throughput + 1 < 2 ^ 64 →
      ((fg_step len env (run_fg_loop len env n w0)).param.throughput =
          (run_fg_loop len env n w0).param.throughput ∨
        (fg_step len env (run_fg_loop len env n w0)).param.throughput =
          (run_fg_loop len env n w0).param.throughput + 1) := by
    intro hlt
    rcases fg_step_cases len env (run_fg_loop len env n w0) with ⟨_, h1⟩ |
      ⟨_, ph, obs, _, h1⟩ | ⟨_, tok, obs, h1⟩ | ⟨_, tok, obs, h1⟩ |
      ⟨_, cur, next, obs, call, _, _, h1⟩
    · rw [h1]; exact Or.inl rfl
    · rw [h1]; exact Or.inl rfl
    · rw [h1]; exact Or.inl rfl
    · rw [h1]; exact Or.inl rfl
    · rw [h1]; exact Or.inr (Nat.mod_eq_of_lt hlt)
  refine ⟨⟨hstep, ?_⟩, ?_⟩
  · intro hlt
    rcases hstep hlt with h | h <;> omega
  · intro ha m
    have hinv := run_fg_loop_alive_running len env n w0
      (fun h => by rw [h0] at h; exact absurd h (by simp)) ha
    rw [run_fg_loop_idle len env m _ hinv]

/-- On a mapping that holds two lines the first pass takes `throughput`
from 0 to 1; after two passes the worker has set `alive = false`, and four
more passes leave its record as it is. -/
theorem throughput_nondecreasing_then_frozen_witness :
    (fg_step 8 example_env (run_fg_loop 8 example_env 0 example_worker)).param.throughput = 1 ∧
    (run_fg_loop 8 example_env 2 example_worker).param.alive = false ∧
    (run_fg_loop 8 example_env 4 (run_fg_loop 8 example_env 2 example_worker)).param =
      (run_fg_loop 8 example_env 2 example_worker).param :=
  ⟨by decide, by decide,
    (throughput_nondecreasing_then_frozen 8 example_env example_worker 2 rfl).2 (by decide) 4⟩

/-! ### The loop ends -/

theorem skip_delims_length (s t : List Byte) (h : skip_delims s = some t) :
    t.length ≤ s.length := by
  induction s with
  | nil => simp [skip_delims] at h
  | cons b bs ih =>
    simp only [skip_delims] at h
    split_ifs at h
    · have := ih h
      simp only [List.length_cons]; omega
    · simp only [Option.some.injEq] at h
      rw [← h]

theorem strtok_span_save_length (s : List Byte) :
    ∀ r, strtok_span s = some r → r.2.2.length ≤ s.length := by
  induction s with
  | nil => intro r h; simp [strtok_span] at h
  | cons b bs ih =>
    intro r h
    simp only [strtok_span] at h
    split_ifs at h
    · simp only [Option.some.injEq] at h
      rw [← h]; simp
    · simp only [Option.some.injEq] at h
      rw [← h]
    · cases hsp : strtok_span bs with
      | none => simp [hsp] at h
      | some r' =>
        simp only [hsp, Option.some.injEq] at h
        have := ih r' hsp
        rw [← h]
        simp only [List.length_cons]
        omega

theorem skip_delims_head (s : List Byte) (b : Byte) (bs : List Byte)
    (h : skip_delims s = some (b :: bs)) : b ≠ 10 := by
  induction s with
  | nil => simp [skip_delims] at h
  | cons c cs ih =>
    simp only [skip_delims] at h
    split_ifs at h with hc
    · exact ih h
    · simp only [Option.some.injEq, List.cons.injEq] at h
      rw [← h.1]; exact hc

theorem strtok_r_save_length (s : List Byte) (tok : Token) (h : strtok_r s = .token tok) :
    tok.save.length < s.length := by
  unfold strtok_r at h
  split at h
  · simp at h
  · simp at h
  · rename_i b bs hskip
    have hlen := skip_delims_length s _ hskip
    have h10 := skip_delims_head s b bs hskip
    split_ifs at h with hb
    simp only [strtok_span, h10, hb, if_false] at h
    cases hsp : strtok_span bs with
    | none => simp [hsp] at h
    | some r =>
      simp only [hsp, Scan.token.injEq] at h
      have hsave := strtok_span_save_length bs r hsp
      rw [← h]
      simp only [List.length_cons] at hlen ⊢
      omega

theorem run_fg_loop_ends (len : Nat) (env : Env D) (fuel : Nat) :
    ∀ w : Worker D,
      (w.phase = .running → 1 ≤ fuel ∧ ∀ tok, w.token = some tok → tok.save.length + 1 ≤ fuel) →
      (run_fg_loop len env fuel w).phase ≠ .running := by
  induction fuel with
  | zero =>
    intro w h
    simp only [run_fg_loop]
    intro hp
    have := (h hp).1
    omega
  | succ fuel ih =>
    intro w h
    simp only [run_fg_loop]
    rcases fg_step_cases len env w with ⟨hp, h1⟩ | ⟨_, ph, obs, hph, h1⟩ | ⟨_, tok, obs, h1⟩ |
      ⟨_, tok, obs, h1⟩ | ⟨hp, cur, next, obs, call, hcur, hnext, h1⟩
    · rw [h1, run_fg_loop_idle len env fuel w hp]; exact hp
    · rw [h1, run_fg_loop_idle len env fuel _ (by rcases hph with rfl | rfl <;> simp)]
      rcases hph with rfl | rfl <;> simp
    · rw [h1, run_fg_loop_idle len env fuel _ (by simp)]; simp
    · rw [h1, run_fg_loop_idle len env fuel _ (by simp)]; simp
    · apply ih
      intro _
      rw [h1]
      have hlt := strtok_r_save_length cur.save next hnext
      have hb := (h hp).2 cur hcur
      refine ⟨by omega, ?_⟩
      intro tok htok
      simp only [Option.some.injEq] at htok
      rw [← htok]
      omega

/-- The function `run_fg` leaves its replay loop on every trace: whenever the
spin on `running` ends, the final state is past the loop (the thread is done,
the process has been ended, a read has left the mapping, or the thread waits
on a gate that is never released). -/
theorem run_fg_leaves_loop (len : Nat) (env : Env D) (file : List Byte) (obs : List Bool)
    (param : FGParam D) (w : Worker D) (h : run_fg len env file obs param = some w) :
    w.phase ≠ .running := by
  unfold run_fg at h
  cases hm : mmap env.page_size file with
  | none =>
    simp only [hm, Option.some.injEq] at h
    rw [← h]; simp
  | some mem =>
    simp only [hm] at h
    cases hs : strtok_r mem with
    | past_mapping =>
      simp only [hs, Option.some.injEq] at h
      rw [← h]; simp
    | null =>
      simp only [hs] at h
      cases hw : spin_wait env obs with
      | none => simp [hw] at h
      | some obs' =>
        simp only [hw, Option.some.injEq] at h
        rw [← h]
        apply run_fg_loop_ends
        intro _
        exact ⟨by omega, by intro tok htok; simp at htok⟩
    | token tok =>
      simp only [hs] at h
      cases hw : spin_wait env obs with
      | none => simp [hw] at h
      | some obs' =>
        simp only [hw, Option.some.injEq] at h
        rw [← h]
        apply run_fg_loop_ends
        intro _
        refine ⟨by omega, ?_⟩
        intro tok' htok
        simp only [Option.some.injEq] at htok
        have := strtok_r_save_length mem tok hs
        rw [← htok]
        omega

/-! ### Unsupported opcodes -/

theorem dispatch_unsupported {len : Nat} (env : Env D) (k : Nat) (op : Byte) (key : Key len)
    (h : op ≠ 114 ∧ op ≠ 117 ∧ op ≠ 105 ∧ op ≠ 115) :
    dispatch env k op key = none := by
  simp only [dispatch, h.1, h.2.1, h.2.2.1, h.2.2.2, if_false]
  split_ifs <;> rfl

/-- The replay loop on lines with supported opcodes (`pre`), then a line
`bad` whose opcode is not `r`, `u`, `i` or `s`, then at least one more line:
the lines of `pre` are dispatched and counted, and `COUT_N_EXIT` ends the
process at `bad`, which is not counted. -/
theorem run_fg_loop_fatal (len : Nat) (env : Env D) (fin : Scan)
    (hrest : env.running_rest = true)
    (hgate : ∀ k, env.training_threads k = 0) (bad : List Byte)
    (hbad : bad.headD 0 ≠ 114 ∧ bad.headD 0 ≠ 117 ∧ bad.headD 0 ≠ 105 ∧ bad.headD 0 ≠ 115)
    (hbadlen : 2 + len ≤ bad.length)
    (pre : List (List Byte)) :
    ∀ (l after save : List Byte) (ls : List (List Byte)) (w : Worker D) (fuel : Nat),
      w.phase = .running → w.token = some ⟨l, after, save⟩ → (∀ b ∈ w.obs, b = true) →
      tokenizes fin save ls → (∀ x ∈ pre, OpLine len x) →
      (∃ tail, tail ≠ [] ∧ l :: ls = pre ++ bad :: tail) →
      w.param.throughput < 2 ^ 64 → pre.length + 1 ≤ fuel →
      (run_fg_loop len env fuel w).phase = .fatal ∧
      (run_fg_loop len env fuel w).param.alive = w.param.alive ∧
      (run_fg_loop len env fuel w).param.throughput = (w.param.throughput + pre.length) % 2 ^ 64 ∧
      (run_fg_loop len env fuel w).param.latency_count =
        int_incr^[pre.length] w.param.latency_count ∧
      (run_fg_loop len env fuel w).calls = w.calls ++ expected_calls len env w.k pre := by
  induction pre with
  | nil =>
    intro l after save ls w fuel hp ht hobs htok _ hshape hthr hfuel
    obtain ⟨fuel, rfl⟩ : ∃ f, fuel = f + 1 := ⟨fuel - 1, by omega⟩
    obtain ⟨tail, htail, hshape⟩ := hshape
    simp only [List.nil_append, List.cons.injEq] at hshape
    obtain ⟨h_l, h_ls⟩ := hshape
    cases tail with
    | nil => exact absurd rfl htail
    | cons t ts =>
      rw [h_ls] at htok
      obtain ⟨after', save', hnext, _, _⟩ := htok
      have hstep := fg_step_fatal len env w l after save w.obs.tail _ _ hp ht
        (read_running_true env w.obs hobs hrest) (hgate w.k)
        (Key.ofCStr_line len l after (by rw [h_l]; exact hbadlen)).1 hnext
        (dispatch_unsupported env w.k _ _ (by rw [h_l]; exact hbad))
      simp only [run_fg_loop, hstep]
      rw [run_fg_loop_idle len env fuel _ (by simp)]
      have hmod := Nat.mod_eq_of_lt hthr
      simp [expected_calls]
      omega
  | cons p pre ih =>
    intro l after save ls w fuel hp ht hobs htok hpre hshape hthr hfuel
    obtain ⟨fuel, rfl⟩ : ∃ f, fuel = f + 1 := ⟨fuel - 1, by omega⟩
    obtain ⟨tail, htail, hshape⟩ := hshape
    simp only [List.cons_append, List.cons.injEq] at hshape
    obtain ⟨h_l, h_ls⟩ := hshape
    have hshape' : ∃ l' ls', pre ++ bad :: tail = l' :: ls' := by
      cases pre with
      | nil => exact ⟨bad, tail, rfl⟩
      | cons a as => exact ⟨a, as ++ bad :: tail, rfl⟩
    obtain ⟨l', ls', hcons⟩ := hshape'
    rw [h_ls, hcons] at htok
    obtain ⟨after', save', hnext, _, htok'⟩ := htok
    have hl : OpLine len l := by rw [h_l]; exact hpre p (by simp)
    obtain ⟨key, call, hkey, hcall, hexp⟩ := dispatch_line len env w.k l after hl
    have hstep := fg_step_continue len env w l after save w.obs.tail key _ call hp ht
      (read_running_true env w.obs hobs hrest) (hgate w.k) hkey hnext hcall
    have hih := ih l' after' save' ls' (fg_step len env w) fuel (by rw [hstep])
      (by rw [hstep]) (by rw [hstep]; exact fun b hb => hobs b (List.mem_of_mem_tail hb))
      htok' (fun x hx => hpre x (by simp [hx])) ⟨tail, htail, hcons.symm⟩
      (by rw [hstep]; exact Nat.mod_lt _ (by norm_num))
      (by simp only [List.length_cons] at hfuel; omega)
    simp only [run_fg_loop]
    obtain ⟨h1, h2, h3, h4, h5⟩ := hih
    refine ⟨h1, ?_, ?_, ?_, ?_⟩
    · rw [h2, hstep]
    · rw [h3, hstep]
      simp only [List.length_cons, Nat.mod_add_mod]
      congr 1
      omega
    · rw [h4, hstep, List.length_cons, Function.iterate_succ_apply]
    · rw [h5, hstep]
      rw [h_l] at hexp
      rw [expected_calls_cons len env w.k p, hexp]
      simp

/-- A line with opcode `d`, or with any opcode other than `r`, `u`, `i`,
`s`, that is followed by at least one more line ends the process: the worker
has dispatched the lines before it, and that line is not counted.  (The size
of the trace file is not a multiple of the page size.) -/
theorem run_fg_fatal_before_last_line (len : Nat) (env : Env D)
    (pre : List (List Byte)) (bad : List Byte) (tail : List (List Byte))
    (final_newline : Bool) (obs : List Bool) (param : FGParam D)
    (hobs : ∀ b ∈ obs, b = true) (hrest : env.running_rest = true)
    (hgate : ∀ k, env.training_threads k = 0)
    (hpre : ∀ l ∈ pre, OpLine len l) (hclean : ∀ l ∈ bad :: tail, clean l ∧ l ≠ [])
    (hbad : bad.headD 0 ≠ 114 ∧ bad.headD 0 ≠ 117 ∧ bad.headD 0 ≠ 105 ∧ bad.headD 0 ≠ 115)
    (hbadlen : 2 + len ≤ bad.length) (htail : tail ≠ [])
    (hpage : 0 < env.page_size)
    (hsize : (file_of (pre ++ bad :: tail) final_newline).length % env.page_size ≠ 0)
    (hthr : param.throughput = 0) (hcnt : param.latency_count = 0)
    (hn : pre.length < 2 ^ 31) :
    ∃ w, run_fg len env (file_of (pre ++ bad :: tail) final_newline) obs param = some w ∧
      w.phase = .fatal ∧ w.calls = expected_calls len env 0 pre ∧
      w.param.throughput = pre.length ∧ w.param.latency_count = pre.length ∧
      w.param.alive = param.alive := by
  have hspin := spin_wait_true env obs hobs hrest
  have htl : ∀ b ∈ obs.tail, b = true := fun b hb => hobs b (List.mem_of_mem_tail hb)
  have hne : ∀ l ∈ pre ++ bad :: tail, clean l ∧ l ≠ [] := by
    intro l hl
    rcases List.mem_append.mp hl with h | h
    · exact opLine_nonempty len l (hpre l h)
    · exact hclean l h
  obtain ⟨mem, hmap, htok⟩ := tokenizes_mmap env.page_size _ final_newline hne hpage hsize
  obtain ⟨l, ls, hls⟩ : ∃ l ls, pre ++ bad :: tail = l :: ls := by
    cases pre with
    | nil => exact ⟨bad, tail, rfl⟩
    | cons a as => exact ⟨a, as ++ bad :: tail, rfl⟩
  have hlen : pre.length + 1 ≤ ls.length := by
    have := congrArg List.length hls
    have ht : 1 ≤ tail.length := by
      cases tail with
      | nil => exact absurd rfl htail
      | cons t ts => simp
    simp at this
    omega
  rw [hls] at htok
  obtain ⟨after, save, hfirst, hlt, hrest'⟩ := htok
  have hcount := tokenizes_length .null ls save hrest'
  have hloop := run_fg_loop_fatal len env .null hrest hgate bad hbad hbadlen pre l after save ls
    { phase := .running, token := some ⟨l, after, save⟩,
      obs := obs.tail, k := 0, param := param, calls := [] }
    (mem.length + 1) rfl rfl htl hrest' hpre
    ⟨tail, htail, hls.symm⟩ (by simp [hthr]) (by omega)
  obtain ⟨h1, h2, h3, h4, h5⟩ := hloop
  simp only [hthr, hcnt, Nat.zero_add, List.nil_append] at h3 h4 h5
  refine ⟨_, by simp only [run_fg, hmap, hfirst, hspin], h1, h5, ?_, ?_, h2⟩
  · rw [h3]; exact Nat.mod_eq_of_lt (by omega)
  · rw [h4, int_incr_iterate pre.length 0 (le_refl 0) (by push_cast; omega)]
    simp

end Worker

/-! ### The start barrier -/

theorem countP_set_same {α : Type} (p : α → Bool) (l : List α) :
    ∀ (i : Nat) (w a : α), l.get? i = some w → p w = p a →
      (l.set i a).countP p = l.countP p := by
  induction l with
  | nil => intro i w a h; simp at h
  | cons x xs ih =>
    intro i w a h hp
    cases i with
    | zero =>
      simp only [List.get?_cons_zero, Option.some.injEq] at h
      subst h
      simp [List.countP_cons, hp]
    | succ i =>
      simp only [List.get?_cons_succ] at h
      simp [List.countP_cons, ih i w a h hp]

theorem countP_set_gain {α : Type} (p : α → Bool) (l : List α) :
    ∀ (i : Nat) (w a : α), l.get? i = some w → p w = false → p a = true →
      (l.set i a).countP p = l.countP p + 1 := by
  induction l with
  | nil => intro i w a h; simp at h
  | cons x xs ih =>
    intro i w a h hw ha
    cases i with
    | zero =>
      simp only [List.get?_cons_zero, Option.some.injEq] at h
      subst h
      simp [List.countP_cons, hw, ha]
    | succ i =>
      simp only [List.get?_cons_succ] at h
      simp [List.countP_cons, ih i w a h hw ha]
      omega

theorem mem_of_get? {α : Type} (l : List α) (i : Nat) (w : α) (h : l.get? i = some w) :
    w ∈ l :=
  List.get?_mem h

theorem get?_set_other {α : Type} (l : List α) (i j : Nat) (a : α) (h : i ≠ j) :
    (l.set i a).get? j = l.get? j := by
  simp [List.get?_eq_getElem?, List.getElem?_set, h]

theorem sysInv_init (n : Nat) : SysInv n (Sys.init n) where
  fg := rfl
  size := by simp [Sys.init]
  count := by
    simp only [Sys.init]
    symm
    rw [List.countP_eq_zero]
    intro w hw
    rw [List.eq_of_mem_replicate hw]
    simp [WorkerThread.counted]
  passed := by simp [Sys.init]
  started := by simp [Sys.init]
  fresh := by
    intro i _ j w _ h
    simp only [Sys.init] at h
    exact List.eq_of_mem_replicate (mem_of_get? _ _ _ h)
  idle := by
    intro w hw _
    simp only [Sys.init] at hw
    rw [List.eq_of_mem_replicate hw]
  released := by
    intro w hw hpc
    simp only [Sys.init] at hw
    rw [List.eq_of_mem_replicate hw] at hpc
    simp at hpc

theorem sysInv_set (n : Nat) (s : Sys) (i : Nat) (w a : WorkerThread) (h : SysInv n s)
    (hw : s.workers.get? i = some w) (hcnt : w.counted = a.counted) (hborn : w.pc ≠ .unborn)
    (hidle : (a.pc = .unborn ∨ a.pc = .setup ∨ a.pc = .spinning) → a.dispatched = 0)
    (hrel : (a.pc = .replay ∨ a.pc = .finished) → (s.coord = .sampling ∨ s.coord = .reporting)) :
    SysInv n { s with workers := s.workers.set i a } where
  fg := h.fg
  size := by simp [h.size]
  count := by
    simp only
    rw [countP_set_same WorkerThread.counted s.workers i w a hw hcnt]
    exact h.count
  passed := h.passed
  started := h.started
  fresh := by
    intro i' hc j w' hij hget
    by_cases hji : i = j
    · subst hji
      have := h.fresh i' hc i w hij hw
      rw [this] at hborn
      exact absurd rfl hborn
    · rw [get?_set_other _ _ _ _ hji] at hget
      exact h.fresh i' hc j w' hij hget
  idle := by
    intro w' hmem hpc
    rcases List.mem_or_eq_of_mem_set hmem with hm | hm
    · exact h.idle w' hm hpc
    · rw [hm] at hpc ⊢
      exact hidle hpc
  released := by
    intro w' hmem hpc
    rcases List.mem_or_eq_of_mem_set hmem with hm | hm
    · exact h.released w' hm hpc
    · rw [hm] at hpc
      exact hrel hpc

theorem sysInv_worker (n : Nat) (s s' : Sys) (i : Nat) (w : WorkerThread) (line : LineObs)
    (h : SysInv n s) (hw : s.workers.get? i = some w)
    (hs : worker_step s i w line = some s') : SysInv n s' := by
  unfold worker_step at hs
  cases hpc : w.pc with
  | unborn => simp [hpc] at hs
  | finished => simp [hpc] at hs
  | setup =>
    simp only [hpc, Option.some.injEq] at hs
    subst hs
    have hwc : w.counted = false := by simp [WorkerThread.counted, hpc]
    have hgain := countP_set_gain WorkerThread.counted s.workers i w { w with pc := .spinning }
      hw hwc (by simp [WorkerThread.counted])
    refine ⟨h.fg, by simp [h.size], ?_, ?_, h.started, ?_, ?_, ?_⟩
    · simp only
      rw [hgain, h.count]
    · intro hc
      exfalso
      have hfull : s.workers.countP WorkerThread.counted = s.workers.length := by
        rw [← h.count, h.passed hc, h.size]
      have := (List.countP_eq_length.mp hfull) w (mem_of_get? _ _ _ hw)
      rw [hwc] at this
      exact absurd this (by simp)
    · intro i' hc j w' hij hget
      by_cases hji : i = j
      · subst hji
        have := h.fresh i' hc i w hij hw
        rw [this] at hpc
        simp at hpc
      · rw [get?_set_other _ _ _ _ hji] at hget
        exact h.fresh i' hc j w' hij hget
    · intro w' hmem hpc'
      rcases List.mem_or_eq_of_mem_set hmem with hm | hm
      · exact h.idle w' hm hpc'
      · rw [hm]
        exact h.idle w (mem_of_get? _ _ _ hw) (Or.inr (Or.inl hpc))
    · intro w' hmem hpc'
      rcases List.mem_or_eq_of_mem_set hmem with hm | hm
      · exact h.released w' hm hpc'
      · rw [hm] at hpc'
        simp at hpc'
  | spinning =>
    simp only [hpc] at hs
    split_ifs at hs with hrun
    · simp only [Option.some.injEq] at hs
      subst hs
      exact sysInv_set n s i w _ h hw (by simp [WorkerThread.counted, hpc])
        (by simp [hpc]) (by simp) (fun _ => Or.inl (h.started hrun))
    · simp only [Option.some.injEq] at hs
      subst hs
      exact h
  | replay =>
    have hpast := h.released w (mem_of_get? _ _ _ hw) (Or.inl hpc)
    simp only [hpc] at hs
    split_ifs at hs
    · cases line with
      | last =>
        simp only [Option.some.injEq] at hs
        subst hs
        exact sysInv_set n s i w _ h hw (by simp [WorkerThread.counted, hpc])
          (by simp [hpc]) (by simp) (fun _ => hpast)
      | supported =>
        simp only [Option.some.injEq] at hs
        subst hs
        exact sysInv_set n s i w _ h hw (by simp [WorkerThread.counted, hpc])
          (by simp [hpc]) (by simp [hpc]) (fun _ => hpast)
      | unsupported =>
        simp only [Option.some.injEq] at hs
        subst hs
        exact ⟨h.fg, h.size, h.count, h.passed, h.started, h.fresh, h.idle, h.released⟩
    · simp only [Option.some.injEq] at hs
      subst hs
      exact sysInv_set n s i w _ h hw (by simp [WorkerThread.counted, hpc])
        (by simp [hpc]) (by simp) (fun _ => hpast)

theorem sysInv_coord (n : Nat) (s s' : Sys) (leave : Bool) (h : SysInv n s)
    (hs : coord_step s leave = some s') : SysInv n s' := by
  unfold coord_step at hs
  have hnot : ∀ i, s.coord = .launching i → ¬ s.running = true := by
    intro i hc hr
    have := h.started hr
    rw [hc] at this
    simp at this
  cases hc : s.coord with
  | launching i =>
    simp only [hc] at hs
    split_ifs at hs with hi
    · simp only [Option.some.injEq] at hs
      subst hs
      have hlt : i < s.workers.length := by rw [h.size, ← h.fg]; exact hi
      have hget : s.workers.get? i = some (s.workers.get ⟨i, hlt⟩) := List.get?_eq_get hlt
      have hold := h.fresh i hc i _ (le_refl i) hget
      refine ⟨h.fg, by simp [h.size], ?_, by simp, ?_, ?_, ?_, ?_⟩
      rotate_right
      · intro w' hmem hpc'
        exfalso
        rcases List.mem_or_eq_of_mem_set hmem with hm | hm
        · have := h.released w' hm hpc'
          rw [hc] at this
          simp at this
        · rw [hm] at hpc'
          simp at hpc'
      · simp only
        rw [countP_set_same WorkerThread.counted s.workers i _ ⟨.setup, 0⟩ hget
          (by rw [hold]; rfl)]
        exact h.count
      · intro hr
        exact absurd hr (hnot i hc)
      · intro i' hc' j w' hij hget'
        simp only [CoordPc.launching.injEq] at hc'
        subst hc'
        rw [get?_set_other _ _ _ _ (by omega)] at hget'
        exact h.fresh i hc j w' (by omega) hget'
      · intro w' hmem hpc'
        rcases List.mem_or_eq_of_mem_set hmem with hm | hm
        · exact h.idle w' hm hpc'
        · rw [hm]
    · simp only [Option.some.injEq] at hs
      subst hs
      refine ⟨h.fg, h.size, h.count, by simp, ?_, by simp, h.idle, ?_⟩
      · intro hr
        exact absurd hr (hnot i hc)
      · intro w' hmem hpc'
        have := h.released w' hmem hpc'
        rw [hc] at this
        simp at this
  | polling =>
    simp only [hc] at hs
    split_ifs at hs with hlt
    · simp only [Option.some.injEq] at hs
      subst hs
      exact h
    · simp only [Option.some.injEq] at hs
      subst hs
      refine ⟨h.fg, h.size, h.count, ?_, by simp, by simp, h.idle, fun _ _ _ => Or.inl rfl⟩
      intro _
      have h1 : s.ready_threads ≤ s.workers.length := by
        rw [h.count]; exact List.countP_le_length _
      have h2 := h.size
      have h3 := h.fg
      simp only
      omega
  | sampling =>
    simp only [hc] at hs
    split_ifs at hs
    · simp only [Option.some.injEq] at hs
      subst hs
      exact ⟨h.fg, h.size, h.count, fun _ => h.passed (Or.inl hc), by simp, by simp, h.idle,
        fun _ _ _ => Or.inr rfl⟩
    · simp only [Option.some.injEq] at hs
      subst hs
      exact h
  | reporting => simp [hc] at hs

theorem sysInv_step (n : Nat) (s s' : Sys) (e : Event) (h : SysInv n s)
    (hs : sys_step s e = some s') : SysInv n s' := by
  unfold sys_step at hs
  split_ifs at hs
  cases e with
  | coord leave => exact sysInv_coord n s s' leave h hs
  | worker i line =>
    simp only [worker_event] at hs
    cases hw : s.workers.get? i with
    | none =>
      rw [hw] at hs
      exact absurd hs (by simp)
    | some w =>
      rw [hw] at hs
      exact sysInv_worker n s s' i w line h hw hs

theorem sysInv_run (n : Nat) (events : List Event) :
    ∀ s s', SysInv n s → sys_run s events = some s' → SysInv n s' := by
  induction events with
  | nil =>
    intro s s' h hs
    simp only [sys_run, Option.some.injEq] at hs
    subst hs
    exact h
  | cons e es ih =>
    intro s s' h hs
    simp only [sys_run] at hs
    cases hstep : sys_step s e with
    | none => simp [hstep] at hs
    | some s1 =>
      simp only [hstep] at hs
      exact ih s1 s' (sysInv_step n s s1 e h hstep) hs

/-- C9: in every state the process reaches from the start of
`run_benchmark` with `fg_n = N`, by any interleaving of the steps of the
launching thread and of the workers: if `running` is true then
`ready_threads = N`; the launching thread is past its poll of
`ready_threads` (it has set `running = true`) only with `ready_threads = N`;
a worker that has not yet read `running` as true (not created, in its setup,
or in its spin) has dispatched no operation; and a worker is past its spin,
or has dispatched an operation, only after the launching thread has set
`running = true`, with `ready_threads = N`. -/
theorem barrier_ready_count_is_fg_n (N : Nat) (events : List Event) (s : Sys)
    (h : sys_run (Sys.init N) events = some s) :
    (s.running = true → s.ready_threads = N) ∧
    (s.coord = .sampling ∨ s.coord = .reporting → s.ready_threads = N) ∧
    (∀ w ∈ s.workers, (w.pc = .unborn ∨ w.pc = .setup ∨ w.pc = .spinning) →
      w.dispatched = 0) ∧
    (∀ w ∈ s.workers, (w.pc = .replay ∨ w.pc = .finished ∨ 0 < w.dispatched) →
      (s.coord = .sampling ∨ s.coord = .reporting) ∧ s.ready_threads = N) := by
  have hinv := sysInv_run N events (Sys.init N) s (sysInv_init N) h
  refine ⟨fun hr => hinv.passed (Or.inl (hinv.started hr)), hinv.passed, hinv.idle, ?_⟩
  intro w hw hpc
  have hpast : w.pc = .replay ∨ w.pc = .finished := by
    rcases hpc with h1 | h1 | h1
    · exact Or.inl h1
    · exact Or.inr h1
    · have hidle := hinv.idle w hw
      cases hw' : w.pc with
      | replay => exact Or.inl rfl
      | finished => exact Or.inr rfl
      | unborn => have := hidle (Or.inl hw'); omega
      | setup => have := hidle (Or.inr (Or.inl hw')); omega
      | spinning => have := hidle (Or.inr (Or.inr hw')); omega
  exact ⟨hinv.released w hw hpast, hinv.passed (hinv.released w hw hpast)⟩

/-- With two workers the run `example_events` ends with `running` true and
`ready_threads = 2`, worker 0 having dispatched one operation. -/
theorem barrier_ready_count_is_fg_n_witness :
    sys_run (Sys.init 2) example_events = some example_state ∧
    example_state.running = true ∧ example_state.ready_threads = 2 ∧
    (⟨.replay, 1⟩ : WorkerThread) ∈ example_state.workers :=
  ⟨by decide, rfl,
    ((barrier_ready_count_is_fg_n 2 example_events example_state (by decide)).2.2.2
      ⟨.replay, 1⟩ (by decide) (Or.inl rfl)).2, by decide⟩

/-! ### The final report -/

end Sia
